import Mathlib

/-!
# Mastermind: a shallow embedding of `mastermind.cpp`

C++ `int` and `long long` values are modelled as `Int`; where the source can
leave the machine range the wrap-around is written out (`wrapInt64`,
`wrapInt32`).  `vector<int>` is a `List Int`, `set<int>` is a strictly
increasing `List Int`, and the line channel (stdin / stdout) is made explicit:
the printed guesses are collected in a list and the lines read are supplied by
a responder.  In codemaker mode the standard input is a finite list of lines.
-/

namespace Mastermind

/-! ## Machine integers -/

/-- Value of a mathematical integer once stored in a 64-bit `long long`. -/
def wrapInt64 (x : Int) : Int := (x + 2 ^ 63) % 2 ^ 64 - 2 ^ 63

/-- Value of a mathematical integer once stored in a 32-bit `int`. -/
def wrapInt32 (x : Int) : Int := (x + 2 ^ 31) % 2 ^ 32 - 2 ^ 31

/-- Membership in the value range of `long long`. -/
def inInt64 (x : Int) : Prop := -(2 ^ 63) ≤ x ∧ x < 2 ^ 63

instance (x : Int) : Decidable (inInt64 x) := by unfold inInt64; infer_instance

/-! ## `validateConstraints` (source lines 29-42) -/

/-- The `while (squereTimes > 0)` loop of `validateConstraints`.  The loop only
runs on positive `squereTimes`, where C++ `%` and `/` agree with `Int`'s. -/
def validateLoop (squereTimes : Int) (k_n mnoznik : Int) : Bool :=
  if squereTimes > 0 then
    if squereTimes % 2 = 1 then
      let k_n1 := wrapInt64 (k_n * mnoznik)
      if k_n1 > 2 ^ 24 then false
      else validateLoop (squereTimes / 2) k_n1 (wrapInt64 (mnoznik * mnoznik))
    else validateLoop (squereTimes / 2) k_n (wrapInt64 (mnoznik * mnoznik))
  else true
termination_by squereTimes.toNat
decreasing_by all_goals omega

/-- Embedding of `bool validateConstraints(int k, int n)`. -/
def validateConstraints (k n : Int) : Bool :=
  if k < 2 ∨ k > 256 ∨ n < 2 ∨ n > 10 then false
  else validateLoop n 1 k

/-- The exact (unwrapped) products formed by the multiplications that the loop
of `validateConstraints` executes, in execution order. -/
def validateLoopProducts (squereTimes : Int) (k_n mnoznik : Int) : List Int :=
  if squereTimes > 0 then
    if squereTimes % 2 = 1 then
      let k_n1 := wrapInt64 (k_n * mnoznik)
      if k_n1 > 2 ^ 24 then [k_n * mnoznik]
      else k_n * mnoznik :: mnoznik * mnoznik ::
        validateLoopProducts (squereTimes / 2) k_n1 (wrapInt64 (mnoznik * mnoznik))
    else mnoznik * mnoznik ::
      validateLoopProducts (squereTimes / 2) k_n (wrapInt64 (mnoznik * mnoznik))
  else []
termination_by squereTimes.toNat
decreasing_by all_goals omega

/-- Products executed by `validateConstraints k n` (none when the range check
already rejects). -/
def validateProducts (k n : Int) : List Int :=
  if k < 2 ∨ k > 256 ∨ n < 2 ∨ n > 10 then []
  else validateLoopProducts n 1 k

/-! ## `calculateResponse` (source lines 46-59) -/

/-- The statement `v[idx]++` on a `vector<int>`.  An index outside the vector is
undefined behaviour in the source; the model leaves the vector unchanged. -/
def incrAt (v : List Int) (idx : Int) : List Int :=
  if 0 ≤ idx ∧ idx < v.length then v.modify (· + 1) idx.toNat else v

/-- Loop state of the first loop of `calculateResponse`. -/
structure CountState where
  black : Int
  secretCount : List Int
  guessCount : List Int
deriving DecidableEq, Repr

/-- First loop of `calculateResponse`: `for (int i = 0; i < n; i++)`, with `rem`
the number of iterations still to run. -/
def countLoop (secret guess : List Int) : Nat → Nat → CountState → CountState
  | 0, _, st => st
  | rem + 1, i, st =>
    if secret.getD i 0 = guess.getD i 0 then
      countLoop secret guess rem (i + 1) { st with black := st.black + 1 }
    else
      countLoop secret guess rem (i + 1)
        { st with secretCount := incrAt st.secretCount (secret.getD i 0)
                  guessCount := incrAt st.guessCount (guess.getD i 0) }

/-- Second loop of `calculateResponse`: `for (int color = 0; color < 256; color++)`. -/
def whiteLoop (secretCount guessCount : List Int) : Nat → Nat → Int → Int
  | 0, _, white => white
  | rem + 1, color, white =>
    whiteLoop secretCount guessCount rem (color + 1)
      (white + min (secretCount.getD color 0) (guessCount.getD color 0))

/-- Embedding of `pair<int,int> calculateResponse(secret, guess)`. -/
def calculateResponse (secret guess : List Int) : Int × Int :=
  let st := countLoop secret guess secret.length 0
    ⟨0, List.replicate 256 0, List.replicate 256 0⟩
  (st.black, whiteLoop st.secretCount st.guessCount 256 0 0)

/-! ## The line channel (source lines 18-26 and 61-89) -/

/-- A line of standard input as the extraction loop `while (iss >> num)` of
`parseNumbers` leaves it: either the whole line was consumed and gave the
integers `xs`, or extraction stopped before the end of the line. -/
inductive Line where
  | tokens (xs : List Int)
  | malformed (xs : List Int)
deriving DecidableEq, Repr

/-- Embedding of `parseNumbers(line, out, expectedCount)`: the returned flag
and the contents of `out`. -/
def parseNumbers (line : Line) (expectedCount : Int) : Bool × List Int :=
  match line with
  | .malformed xs => (false, xs)
  | .tokens xs =>
    if expectedCount ≠ -1 ∧ (xs.length : Int) ≠ expectedCount then (false, xs)
    else (!xs.isEmpty, xs)

/-- The other end of the channel: from the guesses printed so far (oldest
first) to the next line on standard input, `none` at end of input. -/
abbrev Responder := List (List Int) → Option Line

/-- Embedding of `readResponse(n)`, reading the line `input`
(`none` when `getline` fails).  The sum `black + white` is an `int` sum. -/
def readResponse (n : Int) (input : Option Line) : Int × Int :=
  match input with
  | none => (-1, -1)
  | some line =>
    let parsed := parseNumbers line 2
    if !parsed.1 then (-1, -1)
    else
      let black := parsed.2.getD 0 0
      let white := parsed.2.getD 1 0
      if black < 0 ∨ white < 0 ∨ wrapInt32 (black + white) > n ∨ black > n ∨ white > n then
        (-1, -1)
      else (black, white)

/-- What `guessAnswer` leaves behind: its return value, the response read and
the guesses printed so far. -/
structure Answered where
  ok : Bool
  response : Int × Int
  out : List (List Int)
deriving DecidableEq, Repr

/-- Embedding of `guessAnswer(n, guess, response)`: `outputGuess` appends the
guess to the printed lines, then `readResponse` reads the reply. -/
def guessAnswer (resp : Responder) (n : Int) (out : List (List Int)) (guess : List Int) :
    Answered :=
  let out1 := out ++ [guess]
  let response := readResponse n (resp out1)
  if response.1 = -1 ∧ response.2 = -1 then ⟨false, response, out1⟩
  else ⟨true, response, out1⟩

/-- A compliant responder holding `secret`: it answers the guess just printed
with `calculateResponse(secret, guess)` written as the line `black white`. -/
def compliant (secret : List Int) : Responder := fun out =>
  match out.getLast? with
  | none => none
  | some guess =>
    some (Line.tokens [(calculateResponse secret guess).1, (calculateResponse secret guess).2])

/-! ## `lookForUniqueColours` (source lines 93-114) -/

/-- The operation `insert` of `std::set<int>`, the set kept as an increasing list. -/
def setInsert (x : Int) : List Int → List Int
  | [] => [x]
  | y :: ys =>
    if x < y then x :: y :: ys
    else if x = y then y :: ys
    else y :: setInsert x ys

/-- What `lookForUniqueColours` leaves behind: its return value, the reference
parameters `k`, `uniqueColours`, `firstColorNumber`, and the printed guesses. -/
structure Found where
  ok : Bool
  k : Int
  uniqueColours : List Int
  firstColorNumber : Int
  out : List (List Int)
deriving DecidableEq, Repr

/-- The loop `for (int i = 0; i < k; i++)` of `lookForUniqueColours` followed by
the check `counter != n`; `rem` is the number of iterations left before `i`
reaches `k`. -/
def lookLoop (resp : Responder) (k n : Int) :
    Nat → Int → Int → List Int → Int → List (List Int) → Found
  | 0, _, counter, uniqueColours, firstColorNumber, out =>
    ⟨decide (counter = n), k, uniqueColours, firstColorNumber, out⟩
  | rem + 1, i, counter, uniqueColours, firstColorNumber, out =>
    let guess := List.replicate n.toNat i
    let a := guessAnswer resp n out guess
    if !a.ok then ⟨false, k, uniqueColours, firstColorNumber, a.out⟩
    else if a.response.1 = n then ⟨true, 1, uniqueColours, firstColorNumber, a.out⟩
    else if a.response.2 > 0 then ⟨false, k, uniqueColours, firstColorNumber, a.out⟩
    else
      let uniqueColours1 := if a.response.1 ≠ 0 then setInsert i uniqueColours else uniqueColours
      let firstColorNumber1 :=
        if a.response.1 ≠ 0 ∧ counter = 0 then a.response.1 else firstColorNumber
      let counter1 := counter + a.response.1
      if counter1 ≥ n then
        ⟨decide (counter1 = n), k, uniqueColours1, firstColorNumber1, a.out⟩
      else lookLoop resp k n rem (i + 1) counter1 uniqueColours1 firstColorNumber1 a.out

/-- Embedding of `lookForUniqueColours(k, n, uniqueColours, firstColorNumber)`. -/
def lookForUniqueColours (resp : Responder) (k n : Int) (uniqueColours : List Int)
    (firstColorNumber : Int) (out : List (List Int)) : Found :=
  lookLoop resp k n k.toNat 0 0 uniqueColours firstColorNumber out

/-! ## Codebreaker mode of `main` (source lines 163-206) -/

/-- How a session ends: `return 0`, or `ERROR` on `cerr` with `return 1`, or
undefined behaviour (`*uniqueColors.begin()` on an empty set). -/
inductive Exit where
  | success
  | error
  | undefined
deriving DecidableEq, Repr

/-- A finished codebreaker session: how it ended, every guess printed (oldest
first), and the vector `answer` at that moment. -/
structure Session where
  exit : Exit
  out : List (List Int)
  answer : List Int
deriving DecidableEq, Repr

/-- Result of a loop of `main`: either `main` returned inside it, or the loop
was left (by `break` or by exhausting its range) with this state. -/
inductive LoopExit where
  | returned (s : Session)
  | left (guess answer : List Int) (out : List (List Int))
deriving DecidableEq, Repr

/-- The loop `for (int color : uniqueColors)` of `main` at position `pos`, over
the colours still to visit; `base` is `*uniqueColors.begin()`. -/
def candidateLoop (resp : Responder) (n firstColorNumber base : Int) (pos : Nat) :
    List Int → List Int → List Int → List (List Int) → LoopExit
  | [], guess, answer, out => .left guess answer out
  | color :: rest, guess, answer, out =>
    if color = base then candidateLoop resp n firstColorNumber base pos rest guess answer out
    else
      let guess1 := guess.set pos color
      let a := guessAnswer resp n out guess1
      if !a.ok then .returned ⟨.error, a.out, answer⟩
      else if a.response.1 = n then .returned ⟨.success, a.out, answer⟩
      else if a.response.1 > firstColorNumber then .left guess1 (answer.set pos color) a.out
      else if a.response.1 < firstColorNumber then .left guess1 (answer.set pos base) a.out
      else candidateLoop resp n firstColorNumber base pos rest guess1 answer a.out

/-- The loop `for (int pos = 0; pos < n; ++pos)` of `main`; `rem` is the number
of positions left. -/
def positionLoop (resp : Responder) (n firstColorNumber : Int) (uniqueColors : List Int) :
    Nat → Nat → List Int → List (List Int) → LoopExit
  | 0, _, answer, out => .left [] answer out
  | rem + 1, pos, answer, out =>
    match uniqueColors.head? with
    | none => .returned ⟨.undefined, out, answer⟩
    | some base =>
      match candidateLoop resp n firstColorNumber base pos uniqueColors
          (List.replicate n.toNat base) answer out with
      | .returned s => .returned s
      | .left _ answer1 out1 =>
        if answer1.getD pos 0 = -1 then .returned ⟨.error, out1, answer1⟩
        else positionLoop resp n firstColorNumber uniqueColors rem (pos + 1) answer1 out1

/-- Embedding of the codebreaker branch of `main`, for parameters `k`, `n`
already accepted by `initializeGame`. -/
def codebreaker (resp : Responder) (k n : Int) : Session :=
  let answer := List.replicate n.toNat (-1)
  let found := lookForUniqueColours resp k n [] 1 []
  if !found.ok then ⟨.error, found.out, answer⟩
  else if found.k = 1 then ⟨.success, found.out, answer⟩
  else
    match positionLoop resp n found.firstColorNumber found.uniqueColours n.toNat 0 answer
        found.out with
    | .returned s => s
    | .left _ answer1 out1 =>
      let out2 := out1 ++ [answer1]
      let response := readResponse n (resp out2)
      if response.1 ≠ n ∨ response.2 ≠ 0 then ⟨.error, out2, answer1⟩
      else ⟨.success, out2, answer1⟩

/-! ## `isValidGuess` and codemaker mode of `main` (source lines 117-123, 207-222) -/

/-- Value of an `int` after the cast `(size_t) n` (64-bit `size_t`). -/
def toSizeT (n : Int) : Int := n % 2 ^ 64

/-- The loop `for (int color : guess)` of `isValidGuess`. -/
def validColours (k : Int) : List Int → Bool
  | [] => true
  | color :: rest => if color < 0 ∨ color ≥ k then false else validColours k rest

/-- Embedding of `bool isValidGuess(guess, k, n)`. -/
def isValidGuess (guess : List Int) (k n : Int) : Bool :=
  if (guess.length : Int) ≠ toSizeT n then false
  else validColours k guess

/-- A finished codemaker session: how it ended, the guesses handed to
`calculateResponse` and the responses printed, both oldest first. -/
structure MakerSession where
  exit : Exit
  scored : List (List Int)
  out : List (Int × Int)
deriving DecidableEq, Repr

/-- The loop `while (getline(cin, line))` of the codemaker branch of `main`
followed by the final `return 0`, over the lines still on standard input. -/
def codemakerLoop (k n : Int) (secret : List Int) :
    List Line → List (List Int) → List (Int × Int) → MakerSession
  | [], scored, out => ⟨.success, scored, out⟩
  | line :: rest, scored, out =>
    let parsed := parseNumbers line (-1)
    if (!parsed.1 || !isValidGuess parsed.2 k n) = true then ⟨.error, scored, out⟩
    else
      let r := calculateResponse secret parsed.2
      if r.1 = n ∧ r.2 = 0 then ⟨.success, scored ++ [parsed.2], out ++ [r]⟩
      else codemakerLoop k n secret rest (scored ++ [parsed.2]) (out ++ [r])

/-- Embedding of the codemaker branch of `main` on the standard input `input`,
for `k`, `n`, `secret` already accepted by `initializeGame`. -/
def codemaker (k n : Int) (secret : List Int) (input : List Line) : MakerSession :=
  codemakerLoop k n secret input [] []

/-! ## Responders that follow a script -/

/-- The responder that answers the `j`-th guess (counted from 0) with the line
`black white` taken from `rs j`, whatever the guess. -/
def answering (rs : Nat → Int × Int) : Responder := fun out =>
  some (Line.tokens [(rs (out.length - 1)).1, (rs (out.length - 1)).2])

/-- Sum of the black counts of the first `j` scripted responses. -/
def blackTotal (rs : Nat → Int × Int) (j : Nat) : Int :=
  ((List.range j).map (fun (i : Nat) => (rs i).1)).sum

/-! ## Counting functions used to state the properties -/

/-- Number of indices `i < secret.length` with `secret[i] == guess[i]`. -/
def blackCount (secret guess : List Int) : Nat :=
  (List.range secret.length).countP (fun i => secret.getD i 0 = guess.getD i 0)

/-- Number of non-matching indices `i` at which the code `code` (the secret or
the guess) has colour `c`. -/
def restCount (secret guess code : List Int) (c : Int) : Nat :=
  (List.range secret.length).countP
    (fun i => secret.getD i 0 ≠ guess.getD i 0 ∧ code.getD i 0 = c)

/-- Sum over the colours `c` of the minimum of the two non-matching counts. -/
def whiteCount (secret guess : List Int) : Nat :=
  ∑ c in Finset.Ico (0 : Int) 256,
    min (restCount secret guess secret c) (restCount secret guess guess c)

/-- Number of positions of `secret` whose colour lies in `[0, i)`: what the
monochrome probes of the colours below `i` add up to. -/
def countBelow (secret : List Int) (i : Nat) : Nat :=
  secret.countP (fun c => decide (0 ≤ c ∧ c < (i : Int)))

/-- The colours of `[0, i)` that occur in `secret`, in increasing order. -/
def coloursBelow (secret : List Int) (i : Nat) : List Int :=
  ((List.range i).map (fun (j : Nat) => (j : Int))).filter (fun c => decide (c ∈ secret))

/-- The monochrome probes of the colours `0, 1, ..., i - 1`, each of length `n`. -/
def probes (n i : Nat) : List (List Int) :=
  (List.range i).map (fun (j : Nat) => List.replicate n (j : Int))

/-- State of the probing loop when it is about to probe colour `i`, against any
responder: `counter` is non-negative, `uniqueColours` is an increasing list of
colours below `i`, empty as long as `counter` is 0, and once `counter` is not 0
`firstColorNumber` is the black count read for the probe of the first colour of
`uniqueColours`, which lies in `[1, n)`, with a second colour recorded as soon
as `counter` exceeds it. -/
def LookInv (resp : Responder) (n : Int) (i : Nat) (counter : Int) (uniqueColours : List Int)
    (firstColorNumber : Int) : Prop :=
  0 ≤ counter ∧ uniqueColours.Pairwise (· < ·) ∧
  (∀ c ∈ uniqueColours, 0 ≤ c ∧ c < (i : Int)) ∧
  (counter = 0 → uniqueColours = []) ∧
  (counter ≠ 0 → ∃ base : Nat, uniqueColours.head? = some (base : Int) ∧
    firstColorNumber = (readResponse n (resp (probes n.toNat (base + 1)))).1 ∧
    1 ≤ firstColorNumber ∧ firstColorNumber < n ∧ firstColorNumber ≤ counter ∧
    (firstColorNumber < counter → 2 ≤ uniqueColours.length))

/-! ## The scorer computes the counting functions -/

theorem incrAt_length (v : List Int) (idx : Int) : (incrAt v idx).length = v.length := by
  unfold incrAt
  split <;> simp

theorem incrAt_getD (v : List Int) (idx : Int) (c : Nat) (hc : c < v.length) :
    (incrAt v idx).getD c 0 = v.getD c 0 + (if idx = (c : Int) then 1 else 0) := by
  unfold incrAt
  by_cases h : 0 ≤ idx ∧ idx < v.length
  · rw [if_pos h]
    by_cases e : idx = (c : Int)
    · subst e
      simp [List.getD_eq_getElem?_getD, List.getElem?_modify, List.getElem?_eq_getElem hc]
    · have e' : idx.toNat ≠ c := by omega
      simp [List.getD_eq_getElem?_getD, List.getElem?_modify_ne _ _ e', e]
  · rw [if_neg h]
    have e : idx ≠ (c : Int) := by omega
    simp [e]

theorem countLoop_black (secret guess : List Int) :
    ∀ (rem i : Nat) (st : CountState),
      (countLoop secret guess rem i st).black
        = st.black + ((List.range' i rem).countP
            (fun j => secret.getD j 0 = guess.getD j 0) : Nat) := by
  intro rem
  induction rem with
  | zero => intro i st; simp [countLoop]
  | succ r ih =>
    intro i st
    rw [countLoop, List.range'_succ, List.countP_cons]
    by_cases h : secret.getD i 0 = guess.getD i 0
    · rw [if_pos h, ih]
      simp only [h, decide_True, if_true]
      push_cast
      ring
    · rw [if_neg h, ih]
      simp only [h, decide_False, Bool.false_eq_true, if_false, add_zero]

theorem countLoop_lengths (secret guess : List Int) :
    ∀ (rem i : Nat) (st : CountState),
      (countLoop secret guess rem i st).secretCount.length = st.secretCount.length ∧
      (countLoop secret guess rem i st).guessCount.length = st.guessCount.length := by
  intro rem
  induction rem with
  | zero => intro i st; simp [countLoop]
  | succ r ih =>
    intro i st
    rw [countLoop]
    split
    · exact ih (i + 1) _
    · have := ih (i + 1) (CountState.mk st.black (incrAt st.secretCount (secret.getD i 0))
        (incrAt st.guessCount (guess.getD i 0)))
      simpa only [incrAt_length] using this

theorem countLoop_secretCount (secret guess : List Int) :
    ∀ (rem i : Nat) (st : CountState) (c : Nat), c < st.secretCount.length →
      (countLoop secret guess rem i st).secretCount.getD c 0
        = st.secretCount.getD c 0 + ((List.range' i rem).countP
            (fun j => secret.getD j 0 ≠ guess.getD j 0 ∧ secret.getD j 0 = (c : Int)) : Nat) := by
  intro rem
  induction rem with
  | zero => intro i st c _; simp [countLoop]
  | succ r ih =>
    intro i st c hc
    rw [countLoop, List.range'_succ, List.countP_cons]
    by_cases h : secret.getD i 0 = guess.getD i 0
    · rw [if_pos h, ih (i + 1) { st with black := st.black + 1 } c hc]
      simp only [h, ne_eq, not_true_eq_false, false_and, decide_False, Bool.false_eq_true,
        if_false, add_zero]
    · rw [if_neg h, ih (i + 1) ⟨st.black, incrAt st.secretCount (secret.getD i 0),
            incrAt st.guessCount (guess.getD i 0)⟩ c
          (by simpa only [incrAt_length] using hc)]
      simp only [incrAt_getD _ _ _ hc]
      by_cases e : secret.getD i 0 = (c : Int)
      · rw [if_pos e, if_pos (decide_eq_true ⟨h, e⟩)]
        push_cast
        ring
      · rw [if_neg e, if_neg (fun hh => e (of_decide_eq_true hh).2)]
        simp only [add_zero]

theorem countLoop_guessCount (secret guess : List Int) :
    ∀ (rem i : Nat) (st : CountState) (c : Nat), c < st.guessCount.length →
      (countLoop secret guess rem i st).guessCount.getD c 0
        = st.guessCount.getD c 0 + ((List.range' i rem).countP
            (fun j => secret.getD j 0 ≠ guess.getD j 0 ∧ guess.getD j 0 = (c : Int)) : Nat) := by
  intro rem
  induction rem with
  | zero => intro i st c _; simp [countLoop]
  | succ r ih =>
    intro i st c hc
    rw [countLoop, List.range'_succ, List.countP_cons]
    by_cases h : secret.getD i 0 = guess.getD i 0
    · rw [if_pos h, ih (i + 1) { st with black := st.black + 1 } c hc]
      simp only [h, ne_eq, not_true_eq_false, false_and, decide_False, Bool.false_eq_true,
        if_false, add_zero]
    · rw [if_neg h, ih (i + 1) ⟨st.black, incrAt st.secretCount (secret.getD i 0),
            incrAt st.guessCount (guess.getD i 0)⟩ c
          (by simpa only [incrAt_length] using hc)]
      simp only [incrAt_getD _ _ _ hc]
      by_cases e : guess.getD i 0 = (c : Int)
      · rw [if_pos e, if_pos (decide_eq_true ⟨h, e⟩)]
        push_cast
        ring
      · rw [if_neg e, if_neg (fun hh => e (of_decide_eq_true hh).2)]
        simp only [add_zero]

theorem replicate_zero_getD (n c : Nat) : (List.replicate n (0 : Int)).getD c 0 = 0 := by
  rw [List.getD_eq_getElem?_getD, List.getElem?_replicate]
  split <;> rfl

theorem whiteLoop_eq (sc gc : List Int) :
    ∀ (rem color : Nat) (white : Int),
      whiteLoop sc gc rem color white
        = white + ((List.range' color rem).map
            (fun c => min (sc.getD c 0) (gc.getD c 0))).sum := by
  intro rem
  induction rem with
  | zero => intro color white; simp [whiteLoop]
  | succ r ih =>
    intro color white
    rw [whiteLoop, ih, List.range'_succ]
    simp
    ring

theorem list_range_map_sum (f : Nat → Int) (n : Nat) :
    ((List.range n).map f).sum = ∑ c in Finset.range n, f c := by
  induction n with
  | zero => simp
  | succ m ih => rw [List.range_succ, Finset.sum_range_succ]; simp [ih]

theorem sum_range_cast (F : Int → Int) (n : Nat) :
    ∑ c in Finset.range n, F (c : Int) = ∑ c in Finset.Ico (0 : Int) n, F c := by
  refine Finset.sum_nbij (fun c => (c : Int)) ?_ ?_ ?_ ?_
  · intro c hc
    simp only [Finset.mem_range] at hc
    simp only [Finset.mem_Ico]
    omega
  · intro a _ b _ hab
    exact Int.ofNat_inj.mp hab
  · intro z hz
    simp only [Finset.coe_Ico, Set.mem_Ico] at hz
    refine ⟨z.toNat, ?_, ?_⟩
    · simp only [Finset.coe_range, Set.mem_Iio]
      omega
    · simp only
      omega
  · intro c _
    rfl

/-- The scorer returns exactly the two counting functions. -/
theorem calculateResponse_eq (secret guess : List Int) :
    calculateResponse secret guess
      = ((blackCount secret guess : Int), (whiteCount secret guess : Int)) := by
  unfold calculateResponse
  simp only
  rw [countLoop_black, whiteLoop_eq, ← List.range_eq_range', ← List.range_eq_range',
    list_range_map_sum]
  refine Prod.ext ?_ ?_
  · simp [blackCount]
  · simp only [zero_add, whiteCount, Nat.cast_sum]
    have h256 : ((256 : Nat) : Int) = 256 := rfl
    rw [← h256, ← sum_range_cast (fun c => ((min (restCount secret guess secret c)
      (restCount secret guess guess c) : Nat) : Int)) 256]
    refine Finset.sum_congr rfl ?_
    intro c hc
    have hc' : c < 256 := Finset.mem_range.mp hc
    rw [countLoop_secretCount _ _ _ _ _ _ (by simpa only [List.length_replicate] using hc'),
      countLoop_guessCount _ _ _ _ _ _ (by simpa only [List.length_replicate] using hc'),
      replicate_zero_getD, ← List.range_eq_range']
    simp only [zero_add, restCount, Nat.cast_min]

/-! ## Properties of the counting functions -/

theorem blackCount_le (secret guess : List Int) : blackCount secret guess ≤ secret.length := by
  unfold blackCount
  exact (List.countP_le_length _).trans_eq (List.length_range _)

/-- For a list of indices, the per-colour counts of a selected sub-family never
add up to more than the number of selected indices. -/
theorem sum_countP_colour_le (sel : Nat → Bool) (col : Nat → Int) (s : Finset Int) :
    ∀ l : List Nat,
      ∑ c in s, l.countP (fun i => sel i = true ∧ col i = c) ≤ l.countP sel := by
  intro l
  induction l with
  | nil => simp
  | cons a t ih =>
    simp only [List.countP_cons, Finset.sum_add_distrib]
    refine Nat.add_le_add ih ?_
    by_cases ha : sel a = true
    · simp only [ha, true_and, decide_eq_true_eq, if_true]
      rw [Finset.sum_ite_eq s (col a) (fun _ => 1)]
      split <;> simp
    · simp [ha]

theorem restCount_secret_sum_le (secret guess : List Int) (s : Finset Int) :
    ∑ c in s, restCount secret guess secret c
      ≤ (List.range secret.length).countP (fun i => !decide (secret.getD i 0 = guess.getD i 0)) := by
  have := sum_countP_colour_le (fun i => !decide (secret.getD i 0 = guess.getD i 0))
    (fun i => secret.getD i 0) s (List.range secret.length)
  simpa [restCount, -List.getD_eq_getElem?_getD] using this

theorem black_add_rest (secret guess : List Int) :
    blackCount secret guess
      + (List.range secret.length).countP (fun i => !decide (secret.getD i 0 = guess.getD i 0))
      = secret.length := by
  have := List.length_eq_countP_add_countP
    (fun i => decide (secret.getD i 0 = guess.getD i 0)) (List.range secret.length)
  simp only [List.length_range] at this
  have e : (List.range secret.length).countP
        (fun i => !decide (secret.getD i 0 = guess.getD i 0))
      = (List.range secret.length).countP
        (fun a => decide ¬decide (secret.getD a 0 = guess.getD a 0) = true) := by
    refine List.countP_congr ?_
    intro i _
    simp
  rw [e, blackCount]
  exact this.symm

theorem whiteCount_le (secret guess : List Int) :
    whiteCount secret guess
      ≤ (List.range secret.length).countP (fun i => !decide (secret.getD i 0 = guess.getD i 0)) := by
  refine le_trans ?_ (restCount_secret_sum_le secret guess (Finset.Ico 0 256))
  exact Finset.sum_le_sum (fun c _ => min_le_left _ _)

theorem black_add_white_le (secret guess : List Int) :
    blackCount secret guess + whiteCount secret guess ≤ secret.length := by
  have h1 := whiteCount_le secret guess
  have h2 := black_add_rest secret guess
  omega

theorem getD_mem_of_lt (l : List Int) (i : Nat) (h : i < l.length) : l.getD i 0 ∈ l := by
  rw [List.getD_eq_getElem _ _ h]
  exact List.getElem_mem h

theorem getD_map_of_lt (f : Int → Int) (l : List Int) (i : Nat) (h : i < l.length) :
    (l.map f).getD i 0 = f (l.getD i 0) := by
  rw [List.getD_eq_getElem _ _ h, List.getD_eq_getElem _ _ (by simpa using h), List.getElem_map]

theorem getD_replicate_of_lt (n : Nat) (a : Int) (i : Nat) (h : i < n) :
    (List.replicate n a).getD i 0 = a := by
  rw [List.getD_eq_getElem _ _ (by simpa using h), List.getElem_replicate]

theorem getD_set_replicate (n : Nat) (a b : Int) (pos i : Nat) (h : i < n) :
    ((List.replicate n a).set pos b).getD i 0 = if i = pos then b else a := by
  rw [List.getD_eq_getElem _ _ (by simpa using h), List.getElem_set]
  by_cases e : pos = i
  · simp [e]
  · have e' : ¬ i = pos := fun x => e x.symm
    simp [e, e']

/-- Counting a colour in a code is counting the indices that carry it. -/
theorem count_eq_countP_range (c : Int) :
    ∀ l : List Int,
      l.count c = (List.range l.length).countP (fun j => decide (l.getD j 0 = c)) := by
  intro l
  induction l with
  | nil => simp
  | cons a t ih =>
    rw [List.length_cons, List.range_succ_eq_map, List.countP_cons, List.countP_map,
      List.count_cons, ih]
    have e : (List.range t.length).countP ((fun j => decide ((a :: t).getD j 0 = c)) ∘ Nat.succ)
        = (List.range t.length).countP (fun j => decide (t.getD j 0 = c)) := by
      refine List.countP_congr ?_
      intro i _
      simp
    rw [e]
    simp

theorem blackCount_self (s : List Int) : blackCount s s = s.length := by
  unfold blackCount
  rw [List.countP_eq_length.mpr (by intro i _; simp), List.length_range]

theorem restCount_self (s code : List Int) (c : Int) : restCount s s code c = 0 := by
  unfold restCount
  rw [List.countP_eq_zero]
  intro i _
  simp

theorem whiteCount_self (s : List Int) : whiteCount s s = 0 := by
  unfold whiteCount
  refine Finset.sum_eq_zero ?_
  intro c _
  rw [restCount_self, Nat.zero_min]

theorem blackCount_comm (a b : List Int) (h : a.length = b.length) :
    blackCount a b = blackCount b a := by
  unfold blackCount
  rw [h]
  refine List.countP_congr ?_
  intro i _
  simp only [decide_eq_true_eq]
  exact eq_comm

theorem restCount_comm (a b code : List Int) (c : Int) (h : a.length = b.length) :
    restCount a b code c = restCount b a code c := by
  unfold restCount
  rw [h]
  refine List.countP_congr ?_
  intro i _
  simp only [decide_eq_true_eq, ne_eq]
  rw [eq_comm]

theorem whiteCount_comm (a b : List Int) (h : a.length = b.length) :
    whiteCount a b = whiteCount b a := by
  unfold whiteCount
  refine Finset.sum_congr rfl ?_
  intro c _
  rw [restCount_comm a b a c h, restCount_comm a b b c h, Nat.min_comm]

/-- A guess with `n` black pegs is the secret. -/
theorem eq_of_blackCount_eq_length (secret guess : List Int)
    (hlen : secret.length = guess.length) (h : blackCount secret guess = secret.length) :
    guess = secret := by
  unfold blackCount at h
  have h' := h.trans (List.length_range _).symm
  rw [List.countP_eq_length] at h'
  refine List.ext_getElem hlen.symm ?_
  intro i h1 h2
  have := h' i (List.mem_range.mpr h2)
  rw [List.getD_eq_getElem _ _ h1, List.getD_eq_getElem _ _ h2] at this
  exact (of_decide_eq_true this).symm

/-- Black pegs of a monochrome probe: the number of occurrences of its colour. -/
theorem blackCount_replicate (secret : List Int) (i : Int) :
    blackCount secret (List.replicate secret.length i) = secret.count i := by
  unfold blackCount
  rw [count_eq_countP_range]
  refine List.countP_congr ?_
  intro j hj
  rw [getD_replicate_of_lt _ _ _ (List.mem_range.mp hj)]

/-- White pegs of a monochrome probe: none. -/
theorem whiteCount_replicate (secret : List Int) (i : Int) :
    whiteCount secret (List.replicate secret.length i) = 0 := by
  unfold whiteCount
  refine Finset.sum_eq_zero ?_
  intro c _
  by_cases e : c = i
  · have : restCount secret (List.replicate secret.length i) secret c = 0 := by
      unfold restCount
      rw [List.countP_eq_zero]
      intro j hj
      rw [getD_replicate_of_lt _ _ _ (List.mem_range.mp hj)]
      simp [e]
    rw [this, Nat.zero_min]
  · have : restCount secret (List.replicate secret.length i)
        (List.replicate secret.length i) c = 0 := by
      unfold restCount
      rw [List.countP_eq_zero]
      intro j hj
      rw [getD_replicate_of_lt _ _ _ (List.mem_range.mp hj)]
      have e' : ¬ i = c := fun x => e x.symm
      simp [e']
    rw [this, Nat.min_zero]

theorem calculateResponse_replicate (secret : List Int) (i : Int) :
    calculateResponse secret (List.replicate secret.length i) = ((secret.count i : Int), 0) := by
  rw [calculateResponse_eq, blackCount_replicate, whiteCount_replicate]
  simp only [Nat.cast_zero]

/-- Two index predicates that differ at one index only have counts that differ by
what happens at that index. -/
theorem countP_range_update (P Q : Nat → Bool) (pos : Nat) :
    ∀ n : Nat, pos < n → (∀ j, j < n → j ≠ pos → P j = Q j) →
      (List.range n).countP P + (if Q pos = true then 1 else 0)
        = (List.range n).countP Q + (if P pos = true then 1 else 0) := by
  intro n
  induction n with
  | zero => intro h; omega
  | succ m ih =>
    intro hpos hPQ
    rw [List.range_succ, List.countP_append, List.countP_append, List.countP_singleton,
      List.countP_singleton]
    by_cases e : pos = m
    · subst e
      have hc : (List.range pos).countP P = (List.range pos).countP Q := by
        refine List.countP_congr ?_
        intro j hj
        have hj' := List.mem_range.mp hj
        rw [hPQ j (by omega) (by omega)]
      rw [hc]
      omega
    · have hlt : pos < m := by omega
      have := ih hlt (fun j hj hne => hPQ j (by omega) hne)
      rw [hPQ m (by omega) (fun x => e x.symm)]
      omega

/-- Black pegs of a positional probe (the base colour everywhere, the candidate at
`pos`), against the number of occurrences of the base colour. -/
theorem blackCount_set_replicate (secret : List Int) (base cand : Int) (pos : Nat)
    (hpos : pos < secret.length) :
    blackCount secret ((List.replicate secret.length base).set pos cand)
        + (if secret.getD pos 0 = base then 1 else 0)
      = secret.count base + (if secret.getD pos 0 = cand then 1 else 0) := by
  have h := countP_range_update
    (fun j => decide (secret.getD j 0 = ((List.replicate secret.length base).set pos cand).getD j 0))
    (fun j => decide (secret.getD j 0 = base)) pos secret.length hpos
    (by
      intro j hj hne
      simp only
      rw [getD_set_replicate _ _ _ _ _ hj, if_neg hne])
  simp only [decide_eq_true_eq] at h
  rw [getD_set_replicate _ _ _ _ _ hpos, if_pos rfl] at h
  rw [count_eq_countP_range]
  exact h

/-! ## The channel against a compliant responder -/

theorem wrapInt32_small (x : Int) (h0 : 0 ≤ x) (h1 : x < 2 ^ 31) : wrapInt32 x = x := by
  unfold wrapInt32
  omega

theorem readResponse_accepts (n black white : Int) (hn : n < 2 ^ 31) (hb : 0 ≤ black)
    (hw : 0 ≤ white) (hsum : black + white ≤ n) :
    readResponse n (some (Line.tokens [black, white])) = (black, white) := by
  have hwrap : wrapInt32 (black + white) = black + white :=
    wrapInt32_small _ (by omega) (by omega)
  have hcond : ¬ (black < 0 ∨ white < 0 ∨ wrapInt32 (black + white) > n ∨ black > n ∨ white > n) := by
    rw [hwrap]
    omega
  simp [readResponse, parseNumbers, hcond]

theorem calculateResponse_accepted (secret guess : List Int) (n : Int)
    (hn : (secret.length : Int) = n) (hn10 : n ≤ 10) :
    readResponse n (some (Line.tokens
        [(calculateResponse secret guess).1, (calculateResponse secret guess).2]))
      = calculateResponse secret guess := by
  have hle := black_add_white_le secret guess
  rw [calculateResponse_eq]
  refine readResponse_accepts n _ _ (by omega) (by omega) (by omega) ?_
  simp only
  omega

theorem guessAnswer_compliant (secret guess : List Int) (n : Int) (out : List (List Int))
    (hn : (secret.length : Int) = n) (hn10 : n ≤ 10) :
    guessAnswer (compliant secret) n out guess
      = ⟨true, calculateResponse secret guess, out ++ [guess]⟩ := by
  have hresp : readResponse n (compliant secret (out ++ [guess]))
      = calculateResponse secret guess := by
    simp only [compliant, List.getLast?_append, List.getLast?_singleton, Option.or_some]
    exact calculateResponse_accepted secret guess n hn hn10
  unfold guessAnswer
  simp only [hresp]
  have hne : ¬ ((calculateResponse secret guess).1 = -1 ∧ (calculateResponse secret guess).2 = -1) := by
    rw [calculateResponse_eq]
    simp only
    omega
  rw [if_neg hne]

/-! ## `lookForUniqueColours` against a compliant responder -/

theorem countBelow_succ (i : Nat) :
    ∀ secret : List Int,
      countBelow secret (i + 1) = countBelow secret i + secret.count (i : Int) := by
  intro secret
  induction secret with
  | nil => simp [countBelow]
  | cons a t ih =>
    unfold countBelow at ih ⊢
    rw [List.countP_cons, List.countP_cons, List.count_cons, ih]
    have key : (if decide (0 ≤ a ∧ a < ((i + 1 : Nat) : Int)) = true then 1 else 0)
        = (if decide (0 ≤ a ∧ a < (i : Int)) = true then 1 else 0)
          + (if (a == (i : Int)) = true then 1 else 0) := by
      simp only [decide_eq_true_eq, beq_iff_eq]
      by_cases h1 : 0 ≤ a ∧ a < (i : Int)
      · have h2 : 0 ≤ a ∧ a < ((i + 1 : Nat) : Int) := by omega
        have h3 : ¬ a = (i : Int) := by omega
        rw [if_pos h1, if_pos h2, if_neg h3]
      · by_cases h3 : a = (i : Int)
        · have h2 : 0 ≤ a ∧ a < ((i + 1 : Nat) : Int) := by omega
          rw [if_neg h1, if_pos h2, if_pos h3]
        · have h2 : ¬ (0 ≤ a ∧ a < ((i + 1 : Nat) : Int)) := by omega
          rw [if_neg h1, if_neg h2, if_neg h3]
    rw [key]
    omega

theorem countBelow_zero (secret : List Int) : countBelow secret 0 = 0 := by
  unfold countBelow
  rw [List.countP_eq_zero]
  intro c _
  simp only [Nat.cast_zero, decide_eq_true_eq]
  omega

theorem countBelow_le (secret : List Int) (i : Nat) : countBelow secret i ≤ secret.length :=
  List.countP_le_length _

theorem countBelow_eq_length (secret : List Int) (i : Nat) :
    countBelow secret i = secret.length ↔ ∀ c ∈ secret, 0 ≤ c ∧ c < (i : Int) := by
  unfold countBelow
  rw [List.countP_eq_length]
  simp only [decide_eq_true_eq]

theorem countBelow_eq_zero (secret : List Int) (i : Nat) :
    countBelow secret i = 0 ↔ ∀ c ∈ secret, ¬ (0 ≤ c ∧ c < (i : Int)) := by
  unfold countBelow
  rw [List.countP_eq_zero]
  simp only [decide_eq_true_eq]

theorem mem_coloursBelow (secret : List Int) (i : Nat) (c : Int) :
    c ∈ coloursBelow secret i ↔ (0 ≤ c ∧ c < (i : Int)) ∧ c ∈ secret := by
  unfold coloursBelow
  simp only [List.mem_filter, List.mem_map, List.mem_range, decide_eq_true_eq]
  constructor
  · rintro ⟨⟨j, hj, rfl⟩, hc⟩
    exact ⟨⟨by omega, by omega⟩, hc⟩
  · rintro ⟨⟨h0, h1⟩, hc⟩
    exact ⟨⟨c.toNat, by omega, by omega⟩, hc⟩

theorem coloursBelow_succ (secret : List Int) (i : Nat) :
    coloursBelow secret (i + 1)
      = coloursBelow secret i ++ (if (i : Int) ∈ secret then [(i : Int)] else []) := by
  unfold coloursBelow
  rw [List.range_succ, List.map_append, List.filter_append]
  congr 1
  by_cases h : (i : Int) ∈ secret
  · simp [h]
  · simp [h]

theorem setInsert_append_of_lt (x : Int) :
    ∀ l : List Int, (∀ y ∈ l, y < x) → setInsert x l = l ++ [x] := by
  intro l
  induction l with
  | nil => intro _; rfl
  | cons a t ih =>
    intro h
    have ha : a < x := h a (List.mem_cons_self _ _)
    rw [setInsert, if_neg (by omega), if_neg (by omega), ih (fun y hy => h y (List.mem_cons_of_mem _ hy))]
    rfl

theorem coloursBelow_sorted (secret : List Int) (i : Nat) :
    (coloursBelow secret i).Pairwise (· < ·) := by
  unfold coloursBelow
  refine List.Pairwise.filter _ ?_
  rw [List.pairwise_map]
  refine (List.pairwise_lt_range i).imp ?_
  intro a b hab
  exact Int.ofNat_lt.mpr hab

theorem probes_succ (n i : Nat) :
    probes n (i + 1) = probes n i ++ [List.replicate n (i : Int)] := by
  unfold probes
  rw [List.range_succ, List.map_append]
  rfl

theorem count_lt_length_of_not_mono (secret : List Int)
    (hmono : ∀ c : Int, secret ≠ List.replicate secret.length c) (c : Int) :
    secret.count c < secret.length := by
  refine lt_of_le_of_ne (List.count_le_length _ _) ?_
  intro h
  apply hmono c
  rw [List.count_eq_length] at h
  exact List.eq_replicate_iff.mpr ⟨rfl, fun b hb => (h b hb).symm⟩

theorem probe_compliant (secret : List Int) (n : Int) (i : Int) (out : List (List Int))
    (hn : (secret.length : Int) = n) (hn10 : n ≤ 10) :
    guessAnswer (compliant secret) n out (List.replicate n.toNat i)
      = ⟨true, ((secret.count i : Int), 0), out ++ [List.replicate n.toNat i]⟩ := by
  rw [guessAnswer_compliant _ _ _ _ hn hn10]
  have h : n.toNat = secret.length := by omega
  rw [h, calculateResponse_replicate]

/-- The probing loop against a compliant responder holding a secret with at least
two colours: it succeeds, leaves `k` alone, collects the colours met and records
the number of occurrences of the smallest colour `m`. -/
theorem lookLoop_compliant (secret : List Int) (k n m : Int)
    (hn : (secret.length : Int) = n) (hn10 : n ≤ 10)
    (hcol : ∀ c ∈ secret, 0 ≤ c ∧ c < k)
    (hmono : ∀ c : Int, secret ≠ List.replicate secret.length c)
    (hm : m ∈ secret) (hmin : ∀ c ∈ secret, m ≤ c) :
    ∀ (rem i : Nat) (first : Int) (out : List (List Int)),
      i + rem = k.toNat →
      countBelow secret i < secret.length →
      (countBelow secret i ≠ 0 → first = (secret.count m : Int)) →
      ∃ (i1 : Nat) (out1 : List (List Int)),
        countBelow secret i1 = secret.length ∧
        lookLoop (compliant secret) k n rem (i : Int) (countBelow secret i : Int)
            (coloursBelow secret i) first out
          = ⟨true, k, coloursBelow secret i1, (secret.count m : Int), out1⟩ := by
  intro rem
  induction rem with
  | zero =>
    intro i first out hi hlt _
    exfalso
    have : countBelow secret i = secret.length := by
      rw [countBelow_eq_length]
      intro c hc
      have := hcol c hc
      omega
    omega
  | succ r ih =>
    intro i first out hi hlt hfirst
    have hcnt := count_lt_length_of_not_mono secret hmono (i : Int)
    have hsucc := countBelow_succ i secret
    have hle := countBelow_le secret (i + 1)
    unfold lookLoop
    simp only [probe_compliant secret n (i : Int) out hn hn10]
    have hne : ¬ ((secret.count (i : Int) : Int) = n) := by omega
    simp only [Bool.not_true, Bool.false_eq_true, if_false, hne, gt_iff_lt, lt_self_iff_false]
    have hU : (if (secret.count (i : Int) : Int) ≠ 0
          then setInsert (i : Int) (coloursBelow secret i) else coloursBelow secret i)
        = coloursBelow secret (i + 1) := by
      rw [coloursBelow_succ]
      by_cases hc : (i : Int) ∈ secret
      · have : (secret.count (i : Int) : Int) ≠ 0 := by
          have := List.count_pos_iff.mpr hc
          omega
        rw [if_pos this, if_pos hc]
        refine setInsert_append_of_lt _ _ ?_
        intro y hy
        exact ((mem_coloursBelow secret i y).mp hy).1.2
      · have : ¬ (secret.count (i : Int) : Int) ≠ 0 := by
          have := List.count_eq_zero.mpr hc
          omega
        rw [if_neg this, if_neg hc, List.append_nil]
    have hF : countBelow secret (i + 1) ≠ 0 →
        (if (secret.count (i : Int) : Int) ≠ 0 ∧ (countBelow secret i : Int) = 0
          then (secret.count (i : Int) : Int) else first) = (secret.count m : Int) := by
      intro hpos
      by_cases hz : countBelow secret i = 0
      · have hci : secret.count (i : Int) ≠ 0 := by omega
        have hmem : (i : Int) ∈ secret := List.count_pos_iff.mp (Nat.pos_of_ne_zero hci)
        have h1 : m ≤ (i : Int) := hmin _ hmem
        have h2 := (countBelow_eq_zero secret i).mp hz m hm
        have h3 := (hcol m hm).1
        have hmi : m = (i : Int) := by omega
        rw [if_pos ⟨by omega, by omega⟩, hmi]
      · rw [if_neg (by omega)]
        exact hfirst hz
    have hC : ((countBelow secret i : Int) + (secret.count (i : Int) : Int))
        = ((countBelow secret (i + 1) : Nat) : Int) := by
      rw [hsucc]
      push_cast
      rfl
    rw [hU, hC]
    by_cases hge : ((countBelow secret (i + 1) : Nat) : Int) ≥ n
    · have heq : countBelow secret (i + 1) = secret.length := by omega
      refine ⟨i + 1, out ++ [List.replicate n.toNat (i : Int)], heq, ?_⟩
      rw [if_pos hge, hF (by omega)]
      have : ((countBelow secret (i + 1) : Nat) : Int) = n := by omega
      simp only [this, decide_True]
    · rw [if_neg hge]
      have hlt1 : countBelow secret (i + 1) < secret.length := by omega
      have hcast : ((i : Int) + 1) = ((i + 1 : Nat) : Int) := by push_cast; rfl
      rw [hcast]
      exact ih (i + 1) _ _ (by omega) hlt1 hF

/-- The probing loop against a compliant responder holding the monochrome secret
of colour `c`: it probes every colour up to `c`, then signals the trivial case. -/
theorem lookLoop_mono (k n : Int) (c : Nat) (hn1 : 1 ≤ n) (hn10 : n ≤ 10) :
    ∀ (rem i : Nat) (U : List Int) (first : Int) (out : List (List Int)),
      i ≤ c → c < i + rem →
      lookLoop (compliant (List.replicate n.toNat (c : Int))) k n rem (i : Int) 0 U first out
        = ⟨true, 1, U, first,
            out ++ (List.range' i (c + 1 - i)).map
              (fun (j : Nat) => List.replicate n.toNat (j : Int))⟩ := by
  intro rem
  induction rem with
  | zero => intro i U first out h1 h2; omega
  | succ r ih =>
    intro i U first out h1 h2
    have hlen : (((List.replicate n.toNat (c : Int)).length : Nat) : Int) = n := by
      rw [List.length_replicate]
      omega
    unfold lookLoop
    simp only [probe_compliant _ n (i : Int) out hlen hn10, List.count_replicate]
    by_cases e : i = c
    · subst e
      have h0 : i + 1 - i = 1 := by omega
      have hnn : ((n.toNat : Nat) : Int) = n := by omega
      simp [h0, hnn]
    · have hne : ¬ ((c : Int) == (i : Int)) = true := by
        simp only [beq_iff_eq]
        omega
      have hn0 : ¬ (0 : Int) = n := by omega
      have hge : ¬ (0 : Int) ≥ n := by omega
      have hstep : c + 1 - i = (c + 1 - (i + 1)) + 1 := by omega
      have hcast : ((i : Int) + 1) = ((i + 1 : Nat) : Int) := by push_cast; rfl
      simp only [hne, if_false, Nat.cast_zero, hn0, Bool.not_true, Bool.false_eq_true,
        gt_iff_lt, lt_self_iff_false, ne_eq, not_true_eq_false, false_and, add_zero, hge]
      rw [hcast, ih (i + 1) U first _ (by omega) (by omega), hstep, List.range'_succ,
        List.map_cons, List.append_assoc]
      rfl

/-! ## The positional loop against a compliant responder -/

/-- The candidate loop at position `pos`, started on colours that still hold a
candidate able to settle the position: it either returns success right after
printing the secret, or leaves with `answer[pos]` set to the secret colour. -/
theorem candidateLoop_compliant (secret : List Int) (n m : Int) (pos : Nat)
    (hn : (secret.length : Int) = n) (hn10 : n ≤ 10) (hpos : pos < secret.length)
    (answer : List Int) :
    ∀ (colours guess : List Int) (out : List (List Int)),
      (∀ col : Int, guess.set pos col = (List.replicate secret.length m).set pos col) →
      (∃ c ∈ colours, c ≠ m ∧ (secret.getD pos 0 = m ∨ secret.getD pos 0 = c)) →
      (∃ out1, candidateLoop (compliant secret) n (secret.count m : Int) m pos colours guess
          answer out = .returned ⟨.success, out1 ++ [secret], answer⟩) ∨
      (∃ guess1 out1, candidateLoop (compliant secret) n (secret.count m : Int) m pos colours
          guess answer out = .left guess1 (answer.set pos (secret.getD pos 0)) out1) := by
  intro colours
  induction colours with
  | nil =>
    intro guess out _ hex
    obtain ⟨c, hc, _⟩ := hex
    simp at hc
  | cons color rest ih =>
    intro guess out hg hex
    unfold candidateLoop
    by_cases hbase : color = m
    · rw [if_pos hbase]
      refine ih guess out hg ?_
      obtain ⟨c, hc, hcm, hs⟩ := hex
      refine ⟨c, ?_, hcm, hs⟩
      rcases List.mem_cons.mp hc with h | h
      · exact absurd (h.trans hbase) hcm
      · exact h
    · rw [if_neg hbase]
      have hdelta := blackCount_set_replicate secret m color pos hpos
      have hglen : secret.length = ((List.replicate secret.length m).set pos color).length := by
        simp
      simp only [guessAnswer_compliant secret _ n out hn hn10, hg color, calculateResponse_eq,
        Bool.not_true, Bool.false_eq_true, if_false]
      by_cases h1 : (blackCount secret ((List.replicate secret.length m).set pos color) : Int) = n
      · left
        rw [if_pos h1]
        have := eq_of_blackCount_eq_length secret _ hglen (by omega)
        exact ⟨out, by rw [this]⟩
      · rw [if_neg h1]
        by_cases h2 : (blackCount secret ((List.replicate secret.length m).set pos color) : Int)
            > (secret.count m : Int)
        · right
          rw [if_pos h2]
          have hs : secret.getD pos 0 = color := by
            by_contra hne
            rw [if_neg hne] at hdelta
            split at hdelta <;> omega
          exact ⟨_, _, by rw [hs]⟩
        · rw [if_neg h2]
          by_cases h3 : (blackCount secret ((List.replicate secret.length m).set pos color) : Int)
              < (secret.count m : Int)
          · right
            rw [if_pos h3]
            have hs : secret.getD pos 0 = m := by
              by_contra hne
              rw [if_neg hne] at hdelta
              split at hdelta <;> omega
            exact ⟨_, _, by rw [hs]⟩
          · rw [if_neg h3]
            have hsm : secret.getD pos 0 ≠ m := by
              intro hs
              have hsc : ¬ secret.getD pos 0 = color := fun x => hbase (x.symm.trans hs)
              rw [if_pos hs, if_neg hsc] at hdelta
              omega
            have hsc : secret.getD pos 0 ≠ color := by
              intro hs
              rw [if_neg hsm, if_pos hs] at hdelta
              omega
            refine ih _ _ ?_ ?_
            · intro col
              rw [List.set_set]
            · obtain ⟨c, hc, hcm, hs⟩ := hex
              rcases hs with hs | hs
              · exact absurd hs hsm
              · refine ⟨c, ?_, hcm, Or.inr hs⟩
                rcases List.mem_cons.mp hc with h | h
                · exact absurd (hs.trans h) hsc
                · exact h

theorem head_of_sorted_min (U : List Int) (m : Int) (hs : U.Pairwise (· < ·)) (hm : m ∈ U)
    (hmin : ∀ c ∈ U, m ≤ c) : U.head? = some m := by
  cases U with
  | nil => simp at hm
  | cons a t =>
    simp only [List.head?_cons, Option.some.injEq]
    rcases List.mem_cons.mp hm with h | h
    · exact h.symm
    · have h1 := List.rel_of_pairwise_cons hs h
      have h2 := hmin a (List.mem_cons_self _ _)
      omega

/-- The position loop against a compliant responder, once the probing phase has
delivered the colours of the secret and the count of the smallest one: it either
returns success right after printing the secret, or leaves with `answer` equal to
the secret. -/
theorem positionLoop_compliant (secret U : List Int) (n m : Int)
    (hn : (secret.length : Int) = n) (hn10 : n ≤ 10)
    (hcol : ∀ c ∈ secret, 0 ≤ c)
    (hmono : ∀ c : Int, secret ≠ List.replicate secret.length c)
    (hhead : U.head? = some m) (hU : ∀ c ∈ secret, c ∈ U) :
    ∀ (rem pos : Nat) (answer : List Int) (out : List (List Int)),
      pos + rem = secret.length → answer.length = secret.length →
      (∀ j, j < pos → answer.getD j 0 = secret.getD j 0) →
      (∃ out1 ans, positionLoop (compliant secret) n (secret.count m : Int) U rem pos answer out
          = .returned ⟨.success, out1 ++ [secret], ans⟩) ∨
      (∃ guess1 out1, positionLoop (compliant secret) n (secret.count m : Int) U rem pos answer
          out = .left guess1 secret out1) := by
  intro rem
  induction rem with
  | zero =>
    intro pos answer out hp hlen hans
    right
    refine ⟨[], out, ?_⟩
    unfold positionLoop
    have : answer = secret := by
      refine List.ext_getElem hlen ?_
      intro j h1 h2
      have := hans j (by omega)
      rwa [List.getD_eq_getElem _ _ h1, List.getD_eq_getElem _ _ h2] at this
    rw [this]
  | succ r ih =>
    intro pos answer out hp hlen hans
    have hpos : pos < secret.length := by omega
    have hN : n.toNat = secret.length := by omega
    unfold positionLoop
    simp only [hhead, hN]
    have hex : ∃ c ∈ U, c ≠ m ∧ (secret.getD pos 0 = m ∨ secret.getD pos 0 = c) := by
      by_cases hs : secret.getD pos 0 = m
      · have : ∃ c ∈ secret, c ≠ m := by
          by_contra hall
          push_neg at hall
          exact hmono m (List.eq_replicate_iff.mpr ⟨rfl, hall⟩)
        obtain ⟨c, hc, hcm⟩ := this
        exact ⟨c, hU c hc, hcm, Or.inl hs⟩
      · exact ⟨secret.getD pos 0, hU _ (getD_mem_of_lt secret pos hpos), hs, Or.inr rfl⟩
    rcases candidateLoop_compliant secret n m pos hn hn10 hpos answer U
        (List.replicate secret.length m) out (fun _ => rfl) hex with ⟨out1, h⟩ | ⟨g1, out1, h⟩
    · left
      rw [h]
      exact ⟨out1, answer, rfl⟩
    · rw [h]
      simp only
      have hget : (answer.set pos (secret.getD pos 0)).getD pos 0 = secret.getD pos 0 := by
        rw [List.getD_eq_getElem _ _ (by rw [List.length_set]; omega), List.getElem_set_self]
      have hnonneg := hcol _ (getD_mem_of_lt secret pos hpos)
      rw [hget, if_neg (by omega)]
      refine ih (pos + 1) _ _ (by omega) (by rw [List.length_set]; exact hlen) ?_
      intro j hj
      by_cases e : j = pos
      · rw [e, hget]
      · have hj' : j < answer.length := by omega
        rw [List.getD_eq_getElem _ _ (by rw [List.length_set]; exact hj'),
          List.getElem_set_ne (fun x => e x.symm)]
        have := hans j (by omega)
        rwa [List.getD_eq_getElem _ _ hj'] at this

theorem exists_min_colour : ∀ l : List Int, l ≠ [] → ∃ m ∈ l, ∀ c ∈ l, m ≤ c := by
  intro l
  induction l with
  | nil => intro h; exact absurd rfl h
  | cons a t ih =>
    intro _
    by_cases ht : t = []
    · subst ht
      exact ⟨a, List.mem_cons_self _ _, by simp⟩
    · obtain ⟨m, hm, hmin⟩ := ih ht
      by_cases h : a ≤ m
      · refine ⟨a, List.mem_cons_self _ _, ?_⟩
        intro c hc
        rcases List.mem_cons.mp hc with e | e
        · omega
        · exact h.trans (hmin c e)
      · refine ⟨m, List.mem_cons_of_mem _ hm, ?_⟩
        intro c hc
        rcases List.mem_cons.mp hc with e | e
        · omega
        · exact hmin c e

theorem validateConstraints_range (k n : Int) (h : validateConstraints k n = true) :
    2 ≤ k ∧ k ≤ 256 ∧ 2 ≤ n ∧ n ≤ 10 := by
  unfold validateConstraints at h
  by_cases hc : k < 2 ∨ k > 256 ∨ n < 2 ∨ n > 10
  · rw [if_pos hc] at h
    exact absurd h (by decide)
  · omega

/-! ## Whole sessions against a compliant responder -/

/-- The probing phase on a secret with at least two colours. -/
theorem lookFor_compliant (secret : List Int) (k n m first0 : Int) (out0 : List (List Int))
    (hn : (secret.length : Int) = n) (hn1 : 1 ≤ n) (hn10 : n ≤ 10)
    (hcol : ∀ c ∈ secret, 0 ≤ c ∧ c < k)
    (hmono : ∀ c : Int, secret ≠ List.replicate secret.length c)
    (hm : m ∈ secret) (hmin : ∀ c ∈ secret, m ≤ c) :
    ∃ (U : List Int) (out1 : List (List Int)),
      lookForUniqueColours (compliant secret) k n [] first0 out0
        = ⟨true, k, U, (secret.count m : Int), out1⟩ ∧
      U.Pairwise (· < ·) ∧ (∀ c, c ∈ U ↔ c ∈ secret) := by
  have h0 := countBelow_zero secret
  obtain ⟨i1, out1, hfull, hrun⟩ := lookLoop_compliant secret k n m hn hn10 hcol hmono hm hmin
    k.toNat 0 first0 out0 (by omega) (by omega) (fun h => absurd h0 h)
  refine ⟨coloursBelow secret i1, out1, ?_, coloursBelow_sorted secret i1, ?_⟩
  · unfold lookForUniqueColours
    rw [h0] at hrun
    exact hrun
  · intro c
    rw [mem_coloursBelow]
    constructor
    · exact fun h => h.2
    · exact fun h => ⟨(countBelow_eq_length secret i1).mp hfull c h, h⟩

/-- The probing phase on the monochrome secret of colour `c`. -/
theorem lookFor_mono (k n : Int) (c : Nat) (U : List Int) (first0 : Int)
    (out0 : List (List Int)) (hn1 : 1 ≤ n) (hn10 : n ≤ 10) (hc : (c : Int) < k) :
    lookForUniqueColours (compliant (List.replicate n.toNat (c : Int))) k n U first0 out0
      = ⟨true, 1, U, first0, out0 ++ probes n.toNat (c + 1)⟩ := by
  unfold lookForUniqueColours
  have := lookLoop_mono k n c hn1 hn10 k.toNat 0 U first0 out0 (by omega) (by omega)
  rw [Nat.cast_zero] at this
  rw [this, probes, List.range_eq_range']
  rfl

/-- A whole session on a secret with at least two colours. -/
theorem codebreaker_nonmono (secret : List Int) (k n : Int)
    (hn : (secret.length : Int) = n) (hk : 2 ≤ k) (hn1 : 1 ≤ n) (hn10 : n ≤ 10)
    (hcol : ∀ c ∈ secret, 0 ≤ c ∧ c < k)
    (hmono : ∀ c : Int, secret ≠ List.replicate secret.length c) :
    ∃ (out1 : List (List Int)) (ans : List Int),
      codebreaker (compliant secret) k n = ⟨.success, out1 ++ [secret], ans⟩ := by
  have hne : secret ≠ [] := by
    intro h
    rw [h] at hn
    simp at hn
    omega
  obtain ⟨m, hm, hmin⟩ := exists_min_colour secret hne
  obtain ⟨U, out1, hrun, hsorted, hU⟩ :=
    lookFor_compliant secret k n m 1 [] hn hn1 hn10 hcol hmono hm hmin
  have hhead : U.head? = some m :=
    head_of_sorted_min U m hsorted ((hU m).mpr hm) (fun c hc => hmin c ((hU c).mp hc))
  have hN : n.toNat = secret.length := by omega
  unfold codebreaker
  simp only [hrun, Bool.not_true, Bool.false_eq_true, if_false]
  rw [if_neg (by omega)]
  rcases positionLoop_compliant secret U n m hn hn10 (fun c hc => (hcol c hc).1) hmono hhead
      (fun c hc => (hU c).mpr hc) n.toNat 0 (List.replicate n.toNat (-1)) out1 (by omega)
      (by rw [List.length_replicate]; exact hN) (fun j hj => absurd hj (Nat.not_lt_zero j))
    with ⟨out2, ans, h⟩ | ⟨g, out2, h⟩
  · rw [h]
    exact ⟨out2, ans, rfl⟩
  · rw [h]
    simp only
    have hresp : readResponse n (compliant secret (out2 ++ [secret])) = (n, 0) := by
      simp only [compliant, List.getLast?_append, List.getLast?_singleton, Option.or_some]
      rw [calculateResponse_accepted secret secret n hn hn10, calculateResponse_eq,
        blackCount_self, whiteCount_self, hn]
      rfl
    rw [hresp]
    simp only [ne_eq, not_true_eq_false, or_self, if_false]
    exact ⟨out2, secret, rfl⟩

/-- A whole session on the monochrome secret of colour `c`. -/
theorem codebreaker_mono (k n : Int) (c : Nat) (hn1 : 1 ≤ n) (hn10 : n ≤ 10)
    (hc : (c : Int) < k) :
    codebreaker (compliant (List.replicate n.toNat (c : Int))) k n
      = ⟨.success, probes n.toNat (c + 1), List.replicate n.toNat (-1)⟩ := by
  unfold codebreaker
  simp only [lookFor_mono k n c [] 1 [] hn1 hn10 hc, Bool.not_true, Bool.false_eq_true, if_false,
    if_true, List.nil_append]

theorem mono_or_not (secret : List Int) :
    (∃ c : Int, secret = List.replicate secret.length c) ∨
    (∀ c : Int, secret ≠ List.replicate secret.length c) := by
  by_cases h : ∃ c : Int, secret = List.replicate secret.length c
  · exact Or.inl h
  · exact Or.inr (fun c hc => h ⟨c, hc⟩)

theorem compliant_last (secret : List Int) (n : Int) (out : List (List Int))
    (hn : (secret.length : Int) = n) (hn10 : n ≤ 10) :
    readResponse n (compliant secret (out ++ [secret])) = (n, 0) := by
  simp only [compliant, List.getLast?_append, List.getLast?_singleton, Option.or_some]
  rw [calculateResponse_accepted secret secret n hn hn10, calculateResponse_eq,
    blackCount_self, whiteCount_self, hn]
  rfl

/-! ## Colour relabelling -/

theorem blackCount_map (f : Int → Int) (k : Int) (secret guess : List Int)
    (hinj : Set.InjOn f (Set.Ico 0 k)) (hlen : secret.length = guess.length)
    (hs : ∀ c ∈ secret, 0 ≤ c ∧ c < k) (hg : ∀ c ∈ guess, 0 ≤ c ∧ c < k) :
    blackCount (secret.map f) (guess.map f) = blackCount secret guess := by
  unfold blackCount
  rw [List.length_map]
  refine List.countP_congr ?_
  intro i hi
  have hi1 : i < secret.length := List.mem_range.mp hi
  have hi2 : i < guess.length := by omega
  rw [getD_map_of_lt f secret i hi1, getD_map_of_lt f guess i hi2]
  simp only [decide_eq_true_eq]
  constructor
  · intro h
    exact hinj (hs _ (getD_mem_of_lt secret i hi1)) (hg _ (getD_mem_of_lt guess i hi2)) h
  · intro h
    rw [h]

theorem restCount_map (f : Int → Int) (k : Int) (secret guess code : List Int) (c : Int)
    (hinj : Set.InjOn f (Set.Ico 0 k)) (hlen : secret.length = guess.length)
    (hlen2 : secret.length = code.length)
    (hs : ∀ c ∈ secret, 0 ≤ c ∧ c < k) (hg : ∀ c ∈ guess, 0 ≤ c ∧ c < k)
    (hcode : ∀ c ∈ code, 0 ≤ c ∧ c < k) (hc : 0 ≤ c ∧ c < k) :
    restCount (secret.map f) (guess.map f) (code.map f) (f c) = restCount secret guess code c := by
  unfold restCount
  rw [List.length_map]
  refine List.countP_congr ?_
  intro i hi
  have hi1 : i < secret.length := List.mem_range.mp hi
  have hi2 : i < guess.length := by omega
  have hi3 : i < code.length := by omega
  rw [getD_map_of_lt f secret i hi1, getD_map_of_lt f guess i hi2, getD_map_of_lt f code i hi3]
  simp only [decide_eq_true_eq, ne_eq]
  have e1 : f (secret.getD i 0) = f (guess.getD i 0) ↔ secret.getD i 0 = guess.getD i 0 :=
    ⟨fun h => hinj (hs _ (getD_mem_of_lt secret i hi1)) (hg _ (getD_mem_of_lt guess i hi2)) h,
      fun h => by rw [h]⟩
  have e2 : f (code.getD i 0) = f c ↔ code.getD i 0 = c :=
    ⟨fun h => hinj (hcode _ (getD_mem_of_lt code i hi3)) hc h, fun h => by rw [h]⟩
  rw [e1, e2]

theorem restCount_outside (k : Int) (secret guess code : List Int) (c : Int)
    (hlen2 : secret.length = code.length)
    (hcode : ∀ c ∈ code, 0 ≤ c ∧ c < k) (hc : ¬ (0 ≤ c ∧ c < k)) :
    restCount secret guess code c = 0 := by
  unfold restCount
  rw [List.countP_eq_zero]
  intro i hi
  have hi3 : i < code.length := by
    have := List.mem_range.mp hi
    omega
  simp only [decide_eq_true_eq, ne_eq, not_and]
  intro _ h
  exact hc (h ▸ hcode _ (getD_mem_of_lt code i hi3))

/-- With all colours below `k ≤ 256`, only the colours below `k` contribute white pegs. -/
theorem whiteCount_restrict (k : Int) (secret guess : List Int) (hk : k ≤ 256)
    (hs : ∀ c ∈ secret, 0 ≤ c ∧ c < k) :
    whiteCount secret guess
      = ∑ c in Finset.Ico (0 : Int) k,
          min (restCount secret guess secret c) (restCount secret guess guess c) := by
  unfold whiteCount
  symm
  refine Finset.sum_subset ?_ ?_
  · intro c hc
    rw [Finset.mem_Ico] at hc ⊢
    omega
  · intro c _ hc
    rw [Finset.mem_Ico] at hc
    rw [restCount_outside k secret guess secret c rfl hs hc, Nat.zero_min]

theorem whiteCount_map (f : Int → Int) (k : Int) (secret guess : List Int) (hk : k ≤ 256)
    (hbij : Set.BijOn f (Set.Ico 0 k) (Set.Ico 0 k)) (hlen : secret.length = guess.length)
    (hs : ∀ c ∈ secret, 0 ≤ c ∧ c < k) (hg : ∀ c ∈ guess, 0 ≤ c ∧ c < k) :
    whiteCount (secret.map f) (guess.map f) = whiteCount secret guess := by
  have hsf : ∀ c ∈ secret.map f, 0 ≤ c ∧ c < k := by
    intro c hc
    obtain ⟨a, ha, rfl⟩ := List.mem_map.mp hc
    exact hbij.mapsTo (hs a ha)
  rw [whiteCount_restrict k _ _ hk hsf, whiteCount_restrict k _ _ hk hs]
  symm
  refine Finset.sum_nbij f ?_ ?_ ?_ ?_
  · intro c hc
    rw [Finset.mem_Ico] at hc ⊢
    exact hbij.mapsTo hc
  · rw [Finset.coe_Ico]
    exact hbij.injOn
  · rw [Finset.coe_Ico]
    exact hbij.surjOn
  · intro c hc
    rw [Finset.mem_Ico] at hc
    rw [restCount_map f k secret guess secret c hbij.injOn hlen rfl hs hg hs hc,
      restCount_map f k secret guess guess c hbij.injOn hlen hlen hs hg hg hc]

theorem wrapInt32_lt (x : Int) : wrapInt32 x < 2 ^ 31 := by
  unfold wrapInt32
  omega

theorem readResponse_in_range (n black white : Int) (hb : 0 ≤ black) (hw : 0 ≤ white)
    (hsum : black + white ≤ n) :
    readResponse n (some (Line.tokens [black, white])) = (black, white) := by
  by_cases hn : n < 2 ^ 31
  · exact readResponse_accepts n black white hn hb hw hsum
  · have hlt := wrapInt32_lt (black + white)
    have hcond : ¬ (black < 0 ∨ white < 0 ∨ wrapInt32 (black + white) > n ∨ black > n
        ∨ white > n) := by
      omega
    simp [readResponse, parseNumbers, hcond]

theorem not_mono_of_two_colours (secret : List Int)
    (h : ∃ a ∈ secret, ∃ b ∈ secret, a ≠ b) :
    ∀ c : Int, secret ≠ List.replicate secret.length c := by
  intro c hc
  obtain ⟨a, ha, b, hb, hab⟩ := h
  rw [hc] at ha hb
  exact hab ((List.eq_of_mem_replicate ha).trans (List.eq_of_mem_replicate hb).symm)

set_option maxRecDepth 100000 in
/-- Scenario C of the specification, run on the scorer. -/
theorem scenarioC_eval : calculateResponse [0, 7, 7, 2, 4] [0, 7, 2, 7, 4] = (3, 2) := by
  decide

/-! ## The claims -/

/-- Claim C1: for every `(k, n)` accepted by `validateConstraints` and every secret
of length `n` with colours in `[0, k)`, the codebreaker session run against the
responder that answers each guess with `calculateResponse(secret, guess)` ends
with success, the last guess it printed is the secret, and the reply to it is
`(n, 0)`. -/
theorem codebreaker_finds_secret (k n : Int) (secret : List Int)
    (hv : validateConstraints k n = true) (hlen : (secret.length : Int) = n)
    (hcol : ∀ c ∈ secret, 0 ≤ c ∧ c < k) :
    (codebreaker (compliant secret) k n).exit = Exit.success ∧
    (codebreaker (compliant secret) k n).out.getLast? = some secret ∧
    readResponse n (compliant secret (codebreaker (compliant secret) k n).out) = (n, 0) := by
  obtain ⟨hk2, _, hn2, hn10⟩ := validateConstraints_range k n hv
  rcases mono_or_not secret with ⟨c, hc⟩ | hmono
  · have hmem : c ∈ secret := by
      rw [hc]
      exact List.mem_replicate.mpr ⟨by omega, rfl⟩
    have hcr := hcol c hmem
    have hcc : ((c.toNat : Nat) : Int) = c := by omega
    have hN : secret.length = n.toNat := by omega
    have hrun := codebreaker_mono k n c.toNat (by omega) hn10 (by omega)
    rw [hcc, ← hN, ← hc] at hrun
    have hlast : probes secret.length (c.toNat + 1)
        = probes secret.length c.toNat ++ [secret] := by
      rw [probes_succ, hcc, ← hc]
    rw [hrun]
    simp only [hlast, List.getLast?_append, List.getLast?_singleton, Option.or_some, true_and]
    exact compliant_last secret n _ hlen hn10
  · obtain ⟨out1, ans, hrun⟩ :=
      codebreaker_nonmono secret k n hlen hk2 (by omega) hn10 hcol hmono
    rw [hrun]
    simp only [List.getLast?_append, List.getLast?_singleton, Option.or_some, true_and]
    exact compliant_last secret n _ hlen hn10

/-- Witness of claim C1 at `k = 6`, `n = 4`, secret `[1, 3, 3, 5]`. -/
theorem codebreaker_finds_secret_witness :
    validateConstraints 6 4 = true ∧
    (codebreaker (compliant [1, 3, 3, 5]) 6 4).exit = Exit.success ∧
    (codebreaker (compliant [1, 3, 3, 5]) 6 4).out.getLast? = some [1, 3, 3, 5] ∧
    readResponse 4 (compliant [1, 3, 3, 5] (codebreaker (compliant [1, 3, 3, 5]) 6 4).out)
      = (4, 0) :=
  ⟨by simp [validateConstraints, validateLoop, wrapInt64],
    codebreaker_finds_secret 6 4 [1, 3, 3, 5]
      (by simp [validateConstraints, validateLoop, wrapInt64]) (by rfl) (by decide)⟩

/-- Claim C2, evaluated where it fails: `validateConstraints(256, 8)` returns true
although `256^8 = 2^64` exceeds `2^24`; the square `2^32 * 2^32` wraps to `0` in
`long long`, so the running product stays below the cap. -/
theorem validateConstraints_accepts_256_8 :
    validateConstraints 256 8 = true ∧ ¬ ((256 : Int) ^ 8 ≤ 2 ^ 24) :=
  ⟨by simp [validateConstraints, validateLoop, wrapInt64], by norm_num⟩

/-- Claim C3, evaluated where it fails: among the products that
`validateConstraints(256, 8)` executes is `mnoznik * mnoznik = 2^32 * 2^32 = 2^64`,
outside the range of `long long`. -/
theorem validateConstraints_product_overflows :
    (2 : Int) ^ 64 ∈ validateProducts 256 8 ∧ ¬ inInt64 ((2 : Int) ^ 64) :=
  ⟨by simp [validateProducts, validateLoopProducts, wrapInt64], by decide⟩

/-- Claim C4: for a secret and a guess of equal length with colours in `[0, 256)`,
`calculateResponse` returns `(black, white)` with `black` the number of indices
where the two codes agree and `white` the sum over the colours `c` of `[0, 256)`
of the minimum of the numbers of non-matching indices carrying `c` in the secret
and in the guess. -/
theorem calculateResponse_counts (secret guess : List Int)
    (hlen : secret.length = guess.length)
    (hs : ∀ c ∈ secret, 0 ≤ c ∧ c < 256) (hg : ∀ c ∈ guess, 0 ≤ c ∧ c < 256) :
    calculateResponse secret guess
      = ((blackCount secret guess : Int), (whiteCount secret guess : Int)) :=
  calculateResponse_eq secret guess

/-- Witness of claim C4: secret `[0, 7, 7, 2, 4]`, guess `[0, 7, 2, 7, 4]` scores
`(3, 2)`, which is what the two counting functions give. -/
theorem calculateResponse_counts_witness :
    calculateResponse [0, 7, 7, 2, 4] [0, 7, 2, 7, 4] = (3, 2) ∧
    ((blackCount [0, 7, 7, 2, 4] [0, 7, 2, 7, 4] : Int),
      (whiteCount [0, 7, 7, 2, 4] [0, 7, 2, 7, 4] : Int)) = (3, 2) := by
  have h := calculateResponse_counts [0, 7, 7, 2, 4] [0, 7, 2, 7, 4] rfl (by decide) (by decide)
  exact ⟨scenarioC_eval, h.symm.trans scenarioC_eval⟩

/-- Claim C5: scoring a code of length `n` with colours in `[0, 256)` against
itself gives `(n, 0)`. -/
theorem calculateResponse_self (s : List Int) (hs : ∀ c ∈ s, 0 ≤ c ∧ c < 256) :
    calculateResponse s s = ((s.length : Int), 0) := by
  rw [calculateResponse_eq, blackCount_self, whiteCount_self]
  rfl

/-- Witness of claim C5 at the code `[0, 7, 7, 2, 4]`. -/
theorem calculateResponse_self_witness :
    calculateResponse [0, 7, 7, 2, 4] [0, 7, 7, 2, 4] = (5, 0) :=
  calculateResponse_self [0, 7, 7, 2, 4] (by decide)

/-- Claim C6: for `k ≤ 256`, a bijection `f` of `[0, k)` onto itself and a secret
and a guess of equal length with colours in `[0, k)`, relabelling both codes by
`f` leaves the response unchanged. -/
theorem calculateResponse_relabel (k : Int) (f : Int → Int) (secret guess : List Int)
    (hk : k ≤ 256) (hbij : Set.BijOn f (Set.Ico 0 k) (Set.Ico 0 k))
    (hlen : secret.length = guess.length)
    (hs : ∀ c ∈ secret, 0 ≤ c ∧ c < k) (hg : ∀ c ∈ guess, 0 ≤ c ∧ c < k) :
    calculateResponse (secret.map f) (guess.map f) = calculateResponse secret guess := by
  rw [calculateResponse_eq, calculateResponse_eq,
    blackCount_map f k secret guess hbij.injOn hlen hs hg,
    whiteCount_map f k secret guess hk hbij hlen hs hg]

/-- Witness of claim C6: two colours swapped by `c ↦ 1 - c`. -/
theorem calculateResponse_relabel_witness :
    calculateResponse ([0, 1, 1].map (fun c => 1 - c)) ([1, 1, 0].map (fun c => 1 - c))
      = calculateResponse [0, 1, 1] [1, 1, 0] :=
  calculateResponse_relabel 2 (fun c => 1 - c) [0, 1, 1] [1, 1, 0] (by decide)
    ⟨fun c hc => by simp only [Set.mem_Ico] at hc ⊢; omega,
      fun a _ b _ h => by simp only at h; omega,
      fun y hy => ⟨1 - y, by simp only [Set.mem_Ico] at hy ⊢; omega, by simp only; omega⟩⟩
    rfl (by decide) (by decide)

/-- Claim C7: for two codes of equal length with colours in `[0, 256)`, the
response does not depend on which of them is the secret. -/
theorem calculateResponse_symm (a b : List Int) (hlen : a.length = b.length)
    (ha : ∀ c ∈ a, 0 ≤ c ∧ c < 256) (hb : ∀ c ∈ b, 0 ≤ c ∧ c < 256) :
    calculateResponse a b = calculateResponse b a := by
  rw [calculateResponse_eq, calculateResponse_eq, blackCount_comm a b hlen,
    whiteCount_comm a b hlen]

/-- Witness of claim C7 at the codes `[0, 7, 7, 2, 4]` and `[0, 7, 2, 7, 4]`. -/
theorem calculateResponse_symm_witness :
    calculateResponse [0, 7, 7, 2, 4] [0, 7, 2, 7, 4]
      = calculateResponse [0, 7, 2, 7, 4] [0, 7, 7, 2, 4] :=
  calculateResponse_symm [0, 7, 7, 2, 4] [0, 7, 2, 7, 4] rfl (by decide) (by decide)

/-- Claim C8: for a secret and a guess of equal length `n` with colours in
`[0, 256)`, the response `(black, white)` has `0 ≤ black`, `0 ≤ white`,
`black ≤ n`, `white ≤ n` and `black + white ≤ n`, and `readResponse(n)` reading
the line `black white` returns it unchanged. -/
theorem calculateResponse_invariant (secret guess : List Int)
    (hlen : secret.length = guess.length)
    (hs : ∀ c ∈ secret, 0 ≤ c ∧ c < 256) (hg : ∀ c ∈ guess, 0 ≤ c ∧ c < 256) :
    0 ≤ (calculateResponse secret guess).1 ∧ 0 ≤ (calculateResponse secret guess).2 ∧
    (calculateResponse secret guess).1 ≤ secret.length ∧
    (calculateResponse secret guess).2 ≤ secret.length ∧
    (calculateResponse secret guess).1 + (calculateResponse secret guess).2 ≤ secret.length ∧
    readResponse secret.length (some (Line.tokens
        [(calculateResponse secret guess).1, (calculateResponse secret guess).2]))
      = calculateResponse secret guess := by
  have hle := black_add_white_le secret guess
  have hsum : (calculateResponse secret guess).1 + (calculateResponse secret guess).2
      ≤ (secret.length : Int) := by
    rw [calculateResponse_eq]
    simp only
    omega
  have hb : 0 ≤ (calculateResponse secret guess).1 := by
    rw [calculateResponse_eq]
    simp only
    omega
  have hw : 0 ≤ (calculateResponse secret guess).2 := by
    rw [calculateResponse_eq]
    simp only
    omega
  exact ⟨hb, hw, le_trans (le_add_of_nonneg_right hw) hsum,
    le_trans (le_add_of_nonneg_left hb) hsum, hsum,
    (readResponse_in_range (secret.length : Int) (calculateResponse secret guess).1
      (calculateResponse secret guess).2 hb hw hsum).trans
      (@Prod.mk.eta Int Int (calculateResponse secret guess))⟩

/-- Witness of claim C8 at secret `[0, 7, 7, 2, 4]`, guess `[0, 7, 2, 7, 4]`. -/
theorem calculateResponse_invariant_witness :
    (calculateResponse [0, 7, 7, 2, 4] [0, 7, 2, 7, 4]).1
        + (calculateResponse [0, 7, 7, 2, 4] [0, 7, 2, 7, 4]).2
      ≤ (([0, 7, 7, 2, 4] : List Int).length : Int) ∧
    readResponse (([0, 7, 7, 2, 4] : List Int).length : Int) (some (Line.tokens
        [(calculateResponse [0, 7, 7, 2, 4] [0, 7, 2, 7, 4]).1,
          (calculateResponse [0, 7, 7, 2, 4] [0, 7, 2, 7, 4]).2]))
      = calculateResponse [0, 7, 7, 2, 4] [0, 7, 2, 7, 4] :=
  (calculateResponse_invariant [0, 7, 7, 2, 4] [0, 7, 2, 7, 4] rfl (by decide)
    (by decide)).2.2.2.2

/-- Claim C9: for `2 ≤ k ≤ 256` and `2 ≤ n ≤ 10` (the range that every valid
`(k, n)`, and every pair accepted by `validateConstraints`, lies in) and a secret
of length `n` with colours in `[0, k)` that holds at least two different colours,
`lookForUniqueColours` started on the empty set against the compliant responder
returns true with `k` unchanged, `uniqueColours` the (increasing, duplicate-free)
set of exactly the colours of the secret, and `firstColorNumber` the number of
occurrences of the smallest colour of the secret. -/
theorem lookForUniqueColours_finds_colours (k n : Int) (secret : List Int)
    (first0 : Int) (out0 : List (List Int))
    (hk : 2 ≤ k ∧ k ≤ 256) (hn : 2 ≤ n ∧ n ≤ 10) (hlen : (secret.length : Int) = n)
    (hcol : ∀ c ∈ secret, 0 ≤ c ∧ c < k)
    (htwo : ∃ a ∈ secret, ∃ b ∈ secret, a ≠ b) :
    (lookForUniqueColours (compliant secret) k n [] first0 out0).ok = true ∧
    (lookForUniqueColours (compliant secret) k n [] first0 out0).k = k ∧
    (lookForUniqueColours (compliant secret) k n [] first0 out0).uniqueColours.Pairwise
      (· < ·) ∧
    (∀ c, c ∈ (lookForUniqueColours (compliant secret) k n [] first0 out0).uniqueColours
      ↔ c ∈ secret) ∧
    (∀ m ∈ secret, (∀ c ∈ secret, m ≤ c) →
      (lookForUniqueColours (compliant secret) k n [] first0 out0).firstColorNumber
        = (secret.count m : Int)) := by
  obtain ⟨hn2, hn10⟩ := hn
  have hmono := not_mono_of_two_colours secret htwo
  have hne : secret ≠ [] := by
    obtain ⟨a, ha, _⟩ := htwo
    exact List.ne_nil_of_mem ha
  obtain ⟨m0, hm0, hmin0⟩ := exists_min_colour secret hne
  obtain ⟨U, out1, hrun, hsorted, hU⟩ :=
    lookFor_compliant secret k n m0 first0 out0 hlen (by omega) hn10 hcol hmono hm0 hmin0
  refine ⟨by rw [hrun], by rw [hrun], by rw [hrun]; exact hsorted, by rw [hrun]; exact hU, ?_⟩
  intro m hm hmin
  obtain ⟨U1, out2, hrun1, _, _⟩ :=
    lookFor_compliant secret k n m first0 out0 hlen (by omega) hn10 hcol hmono hm hmin
  rw [hrun1]

/-- Witness of claim C9 at `k = 6`, `n = 4`, secret `[1, 3, 3, 5]`: the colour `1`
is the smallest and occurs once. -/
theorem lookForUniqueColours_finds_colours_witness :
    (lookForUniqueColours (compliant [1, 3, 3, 5]) 6 4 [] 1 []).ok = true ∧
    (lookForUniqueColours (compliant [1, 3, 3, 5]) 6 4 [] 1 []).k = 6 ∧
    (∀ c, c ∈ (lookForUniqueColours (compliant [1, 3, 3, 5]) 6 4 [] 1 []).uniqueColours
      ↔ c ∈ [(1 : Int), 3, 3, 5]) ∧
    (lookForUniqueColours (compliant [1, 3, 3, 5]) 6 4 [] 1 []).firstColorNumber = 1 := by
  have h := lookForUniqueColours_finds_colours 6 4 [1, 3, 3, 5] 1 []
    (by decide) (by decide) (by rfl) (by decide)
    ⟨1, by decide, 3, by decide, by decide⟩
  exact ⟨h.1, h.2.1, h.2.2.2.1, h.2.2.2.2 1 (by decide) (by decide)⟩

/-- Claim C10: for `2 ≤ k ≤ 256` and `2 ≤ n ≤ 10` (the range that every valid
`(k, n)`, and every pair accepted by `validateConstraints`, lies in) and a colour
`c` of `[0, k)`, against the compliant responder holding the monochrome secret `[c]*n`
the probing phase prints exactly the monochrome probes of the colours `0, ..., c`
and returns true with `k` set to 1 and nothing recorded, and the session ends with
success having printed these `c + 1` guesses and no other. -/
theorem codebreaker_trivial_case (k n c : Int)
    (hk : 2 ≤ k ∧ k ≤ 256) (hn : 2 ≤ n ∧ n ≤ 10) (hc : 0 ≤ c ∧ c < k) :
    lookForUniqueColours (compliant (List.replicate n.toNat c)) k n [] 1 []
      = ⟨true, 1, [], 1, probes n.toNat (c.toNat + 1)⟩ ∧
    (codebreaker (compliant (List.replicate n.toNat c)) k n).exit = Exit.success ∧
    (codebreaker (compliant (List.replicate n.toNat c)) k n).out
      = probes n.toNat (c.toNat + 1) ∧
    ((codebreaker (compliant (List.replicate n.toNat c)) k n).out.length : Int) = c + 1 := by
  obtain ⟨hn2, hn10⟩ := hn
  have hcc : ((c.toNat : Nat) : Int) = c := by omega
  have h1 := lookFor_mono k n c.toNat [] 1 [] (by omega) hn10 (by omega)
  have h2 := codebreaker_mono k n c.toNat (by omega) hn10 (by omega)
  rw [hcc] at h1 h2
  rw [h2]
  refine ⟨by rw [h1]; rfl, rfl, rfl, ?_⟩
  simp only [probes, List.length_map, List.length_range]
  omega

/-- Witness of claim C10 at `k = 4`, `n = 3`, secret `[2, 2, 2]`: three probes. -/
theorem codebreaker_trivial_case_witness :
    (codebreaker (compliant (List.replicate (3 : Int).toNat 2)) 4 3).exit = Exit.success ∧
    (codebreaker (compliant (List.replicate (3 : Int).toNat 2)) 4 3).out
      = [[0, 0, 0], [1, 1, 1], [2, 2, 2]] := by
  have h := codebreaker_trivial_case 4 3 2 (by decide) (by decide) (by decide)
  exact ⟨h.2.1, h.2.2.1.trans (by decide)⟩

/-! ## The probing loop against an arbitrary responder -/

/-- What `readResponse` can return: the error pair or a pair within the range. -/
theorem readResponse_cases (n : Int) (input : Option Line) (hn10 : n ≤ 10) :
    readResponse n input = (-1, -1) ∨
    (0 ≤ (readResponse n input).1 ∧ 0 ≤ (readResponse n input).2 ∧
      (readResponse n input).1 + (readResponse n input).2 ≤ n) := by
  unfold readResponse
  cases input with
  | none => left; rfl
  | some line =>
    simp only
    by_cases h1 : (!(parseNumbers line 2).1) = true
    · rw [if_pos h1]
      left
      rfl
    · rw [if_neg h1]
      by_cases hc : (parseNumbers line 2).2.getD 0 0 < 0 ∨ (parseNumbers line 2).2.getD 1 0 < 0 ∨
          wrapInt32 ((parseNumbers line 2).2.getD 0 0 + (parseNumbers line 2).2.getD 1 0) > n ∨
          (parseNumbers line 2).2.getD 0 0 > n ∨ (parseNumbers line 2).2.getD 1 0 > n
      · rw [if_pos hc]
        left
        rfl
      · rw [if_neg hc]
        right
        simp only
        have hw := wrapInt32_small
          ((parseNumbers line 2).2.getD 0 0 + (parseNumbers line 2).2.getD 1 0)
        omega

theorem readResponse_tokens (n b w : Int) :
    readResponse n (some (Line.tokens [b, w])) = (-1, -1) ∨
    readResponse n (some (Line.tokens [b, w])) = (b, w) := by
  by_cases hc : b < 0 ∨ w < 0 ∨ wrapInt32 (b + w) > n ∨ b > n ∨ w > n
  · left
    simp [readResponse, parseNumbers, hc]
  · right
    simp [readResponse, parseNumbers, hc]

/-- One iteration of the probing loop, by the response read for the probe. -/
theorem lookLoop_cases (resp : Responder) (k n : Int) (hn0 : 0 ≤ n) (hn10 : n ≤ 10)
    (rem : Nat) (i counter : Int) (U : List Int) (first : Int) (out out1 : List (List Int))
    (R : Int × Int) (hout1 : out1 = out ++ [List.replicate n.toNat i])
    (hR : R = readResponse n (resp out1)) :
    (R = (-1, -1) ∧
      lookLoop resp k n (rem + 1) i counter U first out = ⟨false, k, U, first, out1⟩) ∨
    (R = (n, 0) ∧
      lookLoop resp k n (rem + 1) i counter U first out = ⟨true, 1, U, first, out1⟩) ∨
    (0 ≤ R.1 ∧ R.1 < n ∧ 0 < R.2 ∧
      lookLoop resp k n (rem + 1) i counter U first out = ⟨false, k, U, first, out1⟩) ∨
    (0 ≤ R.1 ∧ R.1 < n ∧ R.2 = 0 ∧ n ≤ counter + R.1 ∧
      lookLoop resp k n (rem + 1) i counter U first out
        = ⟨decide (counter + R.1 = n), k, if R.1 ≠ 0 then setInsert i U else U,
            if R.1 ≠ 0 ∧ counter = 0 then R.1 else first, out1⟩) ∨
    (0 ≤ R.1 ∧ R.1 < n ∧ R.2 = 0 ∧ counter + R.1 < n ∧
      lookLoop resp k n (rem + 1) i counter U first out
        = lookLoop resp k n rem (i + 1) (counter + R.1)
            (if R.1 ≠ 0 then setInsert i U else U)
            (if R.1 ≠ 0 ∧ counter = 0 then R.1 else first) out1) := by
  subst hout1
  rw [lookLoop]
  simp only [guessAnswer, ← hR]
  rcases readResponse_cases n (resp (out ++ [List.replicate n.toNat i])) hn10 with h | h
  · rw [← hR] at h
    left
    refine ⟨h, ?_⟩
    simp [h]
  · rw [← hR] at h
    obtain ⟨h1, h2, h3⟩ := h
    right
    have hne : ¬ (R.1 = -1 ∧ R.2 = -1) := by omega
    simp only [hne, if_false, Bool.not_true, Bool.false_eq_true]
    by_cases e1 : R.1 = n
    · left
      refine ⟨Prod.ext e1 (by simp only; omega), ?_⟩
      rw [if_pos e1]
    · right
      rw [if_neg e1]
      by_cases e2 : R.2 > 0
      · left
        refine ⟨h1, by omega, e2, ?_⟩
        rw [if_pos e2]
      · right
        rw [if_neg e2]
        by_cases e3 : counter + R.1 ≥ n
        · left
          refine ⟨h1, by omega, by omega, e3, ?_⟩
          rw [if_pos e3]
        · right
          refine ⟨h1, by omega, by omega, by omega, ?_⟩
          rw [if_neg e3]

/-- The probing loop only appends to the printed guesses, and when it runs an
iteration it prints the probe of that iteration. -/
theorem lookLoop_out_grows (resp : Responder) (k n : Int) (hn0 : 0 ≤ n) (hn10 : n ≤ 10) :
    ∀ (rem : Nat) (i counter : Int) (U : List Int) (first : Int) (out : List (List Int)),
      out <+: (lookLoop resp k n rem i counter U first out).out ∧
      (0 < rem → out ++ [List.replicate n.toNat i]
        <+: (lookLoop resp k n rem i counter U first out).out) := by
  intro rem
  induction rem with
  | zero =>
    intro i counter U first out
    exact ⟨by rw [lookLoop], fun h => absurd h (Nat.lt_irrefl 0)⟩
  | succ r ih =>
    intro i counter U first out
    have key : out ++ [List.replicate n.toNat i]
        <+: (lookLoop resp k n (r + 1) i counter U first out).out := by
      rcases lookLoop_cases resp k n hn0 hn10 r i counter U first out _ _ rfl rfl with
        ⟨_, h⟩ | ⟨_, h⟩ | ⟨_, _, _, h⟩ | ⟨_, _, _, _, h⟩ | ⟨_, _, _, _, h⟩
      · rw [h]
      · rw [h]
      · rw [h]
      · rw [h]
      · rw [h]
        exact (ih _ _ _ _ _).1
    exact ⟨(List.prefix_append _ _).trans key, fun _ => key⟩

theorem prefix_eq_of_length_eq (p q l : List (List Int)) (hp : p <+: l) (hq : q <+: l)
    (h : p.length = q.length) : p = q :=
  (List.prefix_of_prefix_length_le hp hq (by omega)).eq_of_length h

/-- A line `black white` with `white > 0` is read either as an error or as a
response with positive white count. -/
theorem readResponse_white (n b w : Int) (hw : 0 < w) :
    readResponse n (some (Line.tokens [b, w])) = (-1, -1) ∨
    0 < (readResponse n (some (Line.tokens [b, w]))).2 := by
  rcases readResponse_tokens n b w with h | h
  · exact Or.inl h
  · right
    rw [h]
    exact hw

/-- In the probing loop, a probe answered by a line with positive white count
is the last guess printed, and the loop reports failure. -/
theorem lookLoop_white_fails (resp : Responder) (k n : Int) (hn0 : 0 ≤ n) (hn10 : n ≤ 10) :
    ∀ (rem : Nat) (i counter : Int) (U : List Int) (first : Int) (out : List (List Int))
      (p : List (List Int)) (b w : Int),
      p <+: (lookLoop resp k n rem i counter U first out).out → out.length < p.length →
      resp p = some (Line.tokens [b, w]) → 0 < w →
      (lookLoop resp k n rem i counter U first out).ok = false ∧
      (lookLoop resp k n rem i counter U first out).out = p := by
  intro rem
  induction rem with
  | zero =>
    intro i counter U first out p b w hp hlen _ _
    have hp2 : p <+: out := by
      rw [lookLoop] at hp
      exact hp
    have := hp2.length_le
    omega
  | succ r ih =>
    intro i counter U first out p b w hp hlen hresp hw
    have hpre := (lookLoop_out_grows resp k n hn0 hn10 (r + 1) i counter U first out).2
      (Nat.succ_pos r)
    by_cases hl : p.length = out.length + 1
    · have hpeq : p = out ++ [List.replicate n.toNat i] :=
        prefix_eq_of_length_eq _ _ _ hp hpre (by simp [hl])
      have hread := readResponse_white n b w hw
      rw [← hresp, hpeq] at hread
      rcases lookLoop_cases resp k n hn0 hn10 r i counter U first out _ _ rfl rfl with
        ⟨_, h⟩ | ⟨hR, h⟩ | ⟨_, _, _, h⟩ | ⟨_, _, hR, _, h⟩ | ⟨_, _, hR, _, h⟩
      · rw [h]
        exact ⟨rfl, hpeq.symm⟩
      · rw [hR] at hread
        rcases hread with h1 | h1
        · have := congrArg Prod.snd h1
          simp at this
        · simp at h1
      · rw [h]
        exact ⟨rfl, hpeq.symm⟩
      · rcases hread with h1 | h1
        · rw [h1] at hR
          simp at hR
        · omega
      · rcases hread with h1 | h1
        · rw [h1] at hR
          simp at hR
        · omega
    · have hlen2 : (out ++ [List.replicate n.toNat i]).length < p.length := by
        rw [List.length_append, List.length_singleton]
        omega
      rcases lookLoop_cases resp k n hn0 hn10 r i counter U first out _ _ rfl rfl with
        ⟨_, h⟩ | ⟨_, h⟩ | ⟨_, _, _, h⟩ | ⟨_, _, _, _, h⟩ | ⟨_, _, _, _, h⟩
      · have hp2 : p <+: out ++ [List.replicate n.toNat i] := by
          rw [h] at hp
          exact hp
        have := hp2.length_le
        omega
      · have hp2 : p <+: out ++ [List.replicate n.toNat i] := by
          rw [h] at hp
          exact hp
        have := hp2.length_le
        omega
      · have hp2 : p <+: out ++ [List.replicate n.toNat i] := by
          rw [h] at hp
          exact hp
        have := hp2.length_le
        omega
      · have hp2 : p <+: out ++ [List.replicate n.toNat i] := by
          rw [h] at hp
          exact hp
        have := hp2.length_le
        omega
      · rw [h] at hp ⊢
        exact ih _ _ _ _ _ p b w hp hlen2 hresp hw

theorem blackTotal_succ (rs : Nat → Int × Int) (j : Nat) :
    blackTotal rs (j + 1) = blackTotal rs j + (rs j).1 := by
  unfold blackTotal
  rw [List.range_succ, List.map_append, List.sum_append]
  simp

theorem answering_probe (rs : Nat → Int × Int) (n : Int) (out : List (List Int))
    (g : List Int) (h0 : 0 ≤ (rs out.length).1) (h1 : 0 ≤ (rs out.length).2)
    (h2 : (rs out.length).1 + (rs out.length).2 ≤ n) :
    readResponse n (answering rs (out ++ [g])) = rs out.length := by
  unfold answering
  simp only [List.length_append, List.length_singleton, Nat.add_sub_cancel]
  exact readResponse_in_range n _ _ h0 h1 h2

/-- The probing loop against a script of well-formed responses, none with
`black = n` and none with positive white: it stops after all colours or as soon
as the running total reaches `n`, and succeeds exactly when the total is `n`. -/
theorem lookLoop_total (rs : Nat → Int × Int) (k n : Int) (hn0 : 0 ≤ n) (hn10 : n ≤ 10) :
    ∀ (rem i : Nat) (counter : Int) (U : List Int) (first : Int) (out : List (List Int)),
      out.length = i → counter = blackTotal rs i → (∀ j, j ≤ i → blackTotal rs j < n) →
      (∀ j, j < (lookLoop (answering rs) k n rem i counter U first out).out.length →
        0 ≤ (rs j).1 ∧ 0 ≤ (rs j).2 ∧ (rs j).1 + (rs j).2 ≤ n ∧ (rs j).1 ≠ n ∧ ¬ 0 < (rs j).2) →
      ((lookLoop (answering rs) k n rem i counter U first out).ok = true ↔
        blackTotal rs (lookLoop (answering rs) k n rem i counter U first out).out.length = n) ∧
      (lookLoop (answering rs) k n rem i counter U first out).out.length ≤ i + rem ∧
      (∀ j, j < (lookLoop (answering rs) k n rem i counter U first out).out.length →
        blackTotal rs j < n) ∧
      ((lookLoop (answering rs) k n rem i counter U first out).out.length = i + rem ∨
        n ≤ blackTotal rs (lookLoop (answering rs) k n rem i counter U first out).out.length) := by
  intro rem
  induction rem with
  | zero =>
    intro i counter U first out hlen hc hlt _
    rw [lookLoop]
    simp only [decide_eq_true_eq, hlen, hc, Nat.add_zero, le_refl, true_or, and_true, true_and]
    intro j hj
    exact hlt j (by omega)
  | succ r ih =>
    intro i counter U first out hlen hc hlt hW
    have hpre := ((lookLoop_out_grows (answering rs) k n hn0 hn10 (r + 1) (i : Int) counter U first
      out).2 (Nat.succ_pos r)).length_le
    rw [List.length_append, List.length_singleton, hlen] at hpre
    obtain ⟨w0, w1, w2, w3, w4⟩ := hW i (by omega)
    have hR : rs i = readResponse n (answering rs (out ++ [List.replicate n.toNat (i : Int)])) := by
      rw [answering_probe rs n out _ (by rw [hlen]; exact w0) (by rw [hlen]; exact w1)
        (by rw [hlen]; exact w2), hlen]
    have hcast : ((i : Int) + 1) = ((i + 1 : Nat) : Int) := by push_cast; rfl
    have hsum := blackTotal_succ rs i
    rcases lookLoop_cases (answering rs) k n hn0 hn10 r (i : Int) counter U first out _ (rs i)
        rfl hR with ⟨e, _⟩ | ⟨e, _⟩ | ⟨_, _, e, _⟩ | ⟨_, _, _, hge, h⟩ | ⟨_, _, _, hlt1, h⟩
    · rw [e] at w0
      simp at w0
    · rw [e] at w3
      simp at w3
    · exact absurd e w4
    · rw [h]
      simp only [List.length_append, List.length_singleton, hlen, hsum]
      refine ⟨?_, by omega, ?_, Or.inr (by omega)⟩
      · rw [decide_eq_true_eq, hc]
      · intro j hj
        exact hlt j (by omega)
    · rw [h] at hW ⊢
      rw [hcast] at hW ⊢
      have := ih (i + 1) (counter + (rs i).1) _ _ _
        (by rw [List.length_append, List.length_singleton, hlen])
        (by rw [hsum, hc])
        (by
          intro j hj
          by_cases e : j = i + 1
          · rw [e, hsum, ← hc]
            exact hlt1
          · exact hlt j (by omega))
        hW
      have e : i + 1 + r = i + (r + 1) := by omega
      rw [e] at this
      exact this

/-! ## The claims on the probing phase under arbitrary responses -/

/-- Claim C11: for every responder and `2 ≤ k ≤ 256`, `2 ≤ n ≤ 10`, if a probe
printed by `lookForUniqueColours` (the last guess of the history `p`) is answered
by a line `black white` with `white > 0`, then `lookForUniqueColours` returns
false having printed nothing after that probe, and the codebreaker session ends
in ERROR with `p` as its whole output. -/
theorem probe_white_aborts (resp : Responder) (k n : Int) (p : List (List Int)) (b w : Int)
    (hk : 2 ≤ k ∧ k ≤ 256) (hn : 2 ≤ n ∧ n ≤ 10)
    (hp : p <+: (lookForUniqueColours resp k n [] 1 []).out) (hne : p ≠ [])
    (hresp : resp p = some (Line.tokens [b, w])) (hw : 0 < w) :
    (lookForUniqueColours resp k n [] 1 []).ok = false ∧
    (lookForUniqueColours resp k n [] 1 []).out = p ∧
    (codebreaker resp k n).exit = Exit.error ∧
    (codebreaker resp k n).out = p := by
  have hlen : ([] : List (List Int)).length < p.length :=
    List.length_pos.mpr hne
  have h12 : (lookForUniqueColours resp k n [] 1 []).ok = false ∧
      (lookForUniqueColours resp k n [] 1 []).out = p :=
    lookLoop_white_fails resp k n (by omega) hn.2 k.toNat 0 0 [] 1 [] p b w hp hlen hresp hw
  obtain ⟨h1, h2⟩ := h12
  refine ⟨h1, h2, ?_, ?_⟩
  · unfold codebreaker
    simp only [h1, Bool.not_false, if_true]
  · unfold codebreaker
    simp only [h1, Bool.not_false, if_true]
    exact h2

/-- Witness of claim C11: every probe answered `0 1`, with `k = 2`, `n = 2`. -/
theorem probe_white_aborts_witness :
    (codebreaker (answering (fun _ => (0, 1))) 2 2).exit = Exit.error ∧
    (codebreaker (answering (fun _ => (0, 1))) 2 2).out = [[0, 0]] :=
  (probe_white_aborts (answering (fun _ => (0, 1))) 2 2 [[0, 0]] 0 1 (by decide) (by decide)
    ⟨[], by decide⟩ (by decide) rfl (by decide)).2.2

/-- Claim C12: for `2 ≤ k ≤ 256`, `2 ≤ n ≤ 10` and a script of responses in which
every probe issued is answered by a well-formed response (`black, white ≥ 0`,
`black + white ≤ n`) with `black ≠ n` and without positive white,
`lookForUniqueColours` returns true if and only if the black counts of the probes
it issued sum to exactly `n`; it issues at most `k` probes, the running total is
below `n` before each of them, and it stops after all `k` colours or as soon as
the total is at least `n`. -/
theorem lookFor_success_iff_total (rs : Nat → Int × Int) (k n : Int)
    (hk : 2 ≤ k ∧ k ≤ 256) (hn : 2 ≤ n ∧ n ≤ 10)
    (hW : ∀ j, j < (lookForUniqueColours (answering rs) k n [] 1 []).out.length →
      0 ≤ (rs j).1 ∧ 0 ≤ (rs j).2 ∧ (rs j).1 + (rs j).2 ≤ n ∧ (rs j).1 ≠ n ∧ ¬ 0 < (rs j).2) :
    ((lookForUniqueColours (answering rs) k n [] 1 []).ok = true ↔
      blackTotal rs (lookForUniqueColours (answering rs) k n [] 1 []).out.length = n) ∧
    ((lookForUniqueColours (answering rs) k n [] 1 []).out.length : Int) ≤ k ∧
    (∀ j, j < (lookForUniqueColours (answering rs) k n [] 1 []).out.length →
      blackTotal rs j < n) ∧
    (((lookForUniqueColours (answering rs) k n [] 1 []).out.length : Int) = k ∨
      n ≤ blackTotal rs (lookForUniqueColours (answering rs) k n [] 1 []).out.length) := by
  have h := lookLoop_total rs k n (by omega) hn.2 k.toNat 0 0 [] 1 [] rfl (by simp [blackTotal])
    (by
      intro j hj
      have : j = 0 := by omega
      rw [this]
      simp only [blackTotal, List.range_zero, List.map_nil, List.sum_nil]
      omega)
    hW
  simp only [Nat.cast_zero, Nat.zero_add] at h
  unfold lookForUniqueColours
  obtain ⟨h1, h2, h3, h4⟩ := h
  refine ⟨h1, by omega, h3, ?_⟩
  rcases h4 with h4 | h4
  · left
    omega
  · exact Or.inr h4

/-- Witness of claim C12: every probe answered `2 0`, with `k = 2`, `n = 4`. -/
theorem lookFor_success_iff_total_witness :
    (lookForUniqueColours (answering (fun _ => (2, 0))) 2 4 [] 1 []).ok = true ↔
      blackTotal (fun _ => (2, 0))
        (lookForUniqueColours (answering (fun _ => (2, 0))) 2 4 [] 1 []).out.length = 4 :=
  (lookFor_success_iff_total (fun _ => (2, 0)) 2 4 (by decide) (by decide)
    (fun _ _ => by simp)).1

/-! ## The state of the probing loop under arbitrary responses -/

theorem lookInv_step (resp : Responder) (n : Int) (i : Nat) (counter : Int) (U : List Int)
    (first : Int) (R : Int × Int)
    (hR : R = readResponse n (resp (probes n.toNat (i + 1)))) (h0 : 0 ≤ R.1) (h1 : R.1 < n)
    (hinv : LookInv resp n i counter U first) :
    LookInv resp n (i + 1) (counter + R.1)
      (if R.1 ≠ 0 then setInsert (i : Int) U else U)
      (if R.1 ≠ 0 ∧ counter = 0 then R.1 else first) := by
  obtain ⟨hc, hsorted, hmem, hzero, hpos⟩ := hinv
  by_cases hb : R.1 = 0
  · rw [if_neg (by simp [hb]), if_neg (by simp [hb]), hb, add_zero]
    refine ⟨hc, hsorted, ?_, hzero, hpos⟩
    intro c hcU
    have := hmem c hcU
    push_cast
    omega
  · rw [if_pos hb, setInsert_append_of_lt _ _ (fun y hy => (hmem y hy).2)]
    refine ⟨by omega, ?_, ?_, ?_, ?_⟩
    · rw [List.pairwise_append]
      refine ⟨hsorted, List.pairwise_singleton _ _, ?_⟩
      intro a ha b hb'
      rw [List.mem_singleton] at hb'
      rw [hb']
      exact (hmem a ha).2
    · intro c hcU
      rw [List.mem_append, List.mem_singleton] at hcU
      push_cast
      rcases hcU with h | h
      · have := hmem c h
        omega
      · omega
    · intro h
      omega
    · intro _
      by_cases hcz : counter = 0
      · rw [if_pos ⟨hb, hcz⟩, hzero hcz, hcz]
        refine ⟨i, rfl, congrArg Prod.fst hR, by omega, h1, by omega, fun h => by omega⟩
      · rw [if_neg (fun h => hcz h.2)]
        obtain ⟨base, hhead, hfirst, hf1, hfn, hfc, _⟩ := hpos hcz
        refine ⟨base, ?_, hfirst, hf1, hfn, by omega, fun _ => ?_⟩
        · cases U with
          | nil => simp at hhead
          | cons a t => simpa using hhead
        · cases U with
          | nil => simp at hhead
          | cons a t => simp

/-- When the probing loop, entered in a state satisfying `LookInv`, returns true
without signalling the trivial case, it leaves `k` alone and its final state
satisfies `LookInv` with `counter = n`. -/
theorem lookLoop_success_inv (resp : Responder) (k n : Int) (hn0 : 0 ≤ n) (hn10 : n ≤ 10) :
    ∀ (rem i : Nat) (counter : Int) (U : List Int) (first : Int),
      LookInv resp n i counter U first → counter < n → i + rem = k.toNat →
      (lookLoop resp k n rem (i : Int) counter U first (probes n.toNat i)).ok = true →
      (lookLoop resp k n rem (i : Int) counter U first (probes n.toNat i)).k ≠ 1 →
      ∃ j : Nat, j ≤ k.toNat ∧
        LookInv resp n j n
          (lookLoop resp k n rem (i : Int) counter U first (probes n.toNat i)).uniqueColours
          (lookLoop resp k n rem (i : Int) counter U first (probes n.toNat i)).firstColorNumber ∧
        (lookLoop resp k n rem (i : Int) counter U first (probes n.toNat i)).k = k ∧
        (lookLoop resp k n rem (i : Int) counter U first (probes n.toNat i)).out
          = probes n.toNat j := by
  intro rem
  induction rem with
  | zero =>
    intro i counter U first _ hlt _ hok _
    rw [lookLoop] at hok
    simp only [decide_eq_true_eq] at hok
    omega
  | succ r ih =>
    intro i counter U first hinv hlt hi hok hk1
    have hout : probes n.toNat (i + 1)
        = probes n.toNat i ++ [List.replicate n.toNat (i : Int)] := probes_succ _ _
    have hcast : ((i : Int) + 1) = ((i + 1 : Nat) : Int) := by push_cast; rfl
    rcases lookLoop_cases resp k n hn0 hn10 r (i : Int) counter U first (probes n.toNat i)
        (probes n.toNat (i + 1)) _ hout rfl with
      ⟨_, h⟩ | ⟨_, h⟩ | ⟨_, _, _, h⟩ | ⟨h0, h1, _, _, h⟩ | ⟨h0, h1, _, hlt1, h⟩
    · rw [h] at hok
      simp at hok
    · rw [h] at hk1
      simp at hk1
    · rw [h] at hok
      simp at hok
    · have hstep := lookInv_step resp n i counter U first _ rfl h0 h1 hinv
      rw [h] at hok ⊢
      simp only [decide_eq_true_eq] at hok
      rw [hok] at hstep
      exact ⟨i + 1, by omega, hstep, rfl, rfl⟩
    · have hstep := lookInv_step resp n i counter U first _ rfl h0 h1 hinv
      rw [h] at hok hk1 ⊢
      rw [hcast] at hok hk1 ⊢
      exact ih (i + 1) _ _ _ hstep hlt1 (by omega) hok hk1

theorem probes_initial (n : Nat) (i j : Nat) (h : i ≤ j) : probes n i <+: probes n j := by
  induction j with
  | zero =>
    have : i = 0 := by omega
    rw [this]
  | succ m ih =>
    by_cases e : i = m + 1
    · rw [e]
    · rw [probes_succ]
      exact (ih (by omega)).trans (List.prefix_append _ _)

/-- What `lookForUniqueColours`, started on the empty set, leaves behind when it
returns true without signalling the trivial case. -/
theorem lookFor_success_state (resp : Responder) (k n first0 : Int)
    (hk : 2 ≤ k) (hn : 2 ≤ n) (hn10 : n ≤ 10)
    (hok : (lookForUniqueColours resp k n [] first0 []).ok = true)
    (hnt : (lookForUniqueColours resp k n [] first0 []).k ≠ 1) :
    ∃ (j base : Nat), (j : Int) ≤ k ∧ base < j ∧
      (lookForUniqueColours resp k n [] first0 []).out = probes n.toNat j ∧
      (lookForUniqueColours resp k n [] first0 []).k = k ∧
      (lookForUniqueColours resp k n [] first0 []).uniqueColours.Pairwise (· < ·) ∧
      (∀ c ∈ (lookForUniqueColours resp k n [] first0 []).uniqueColours,
        0 ≤ c ∧ c < (j : Int)) ∧
      (lookForUniqueColours resp k n [] first0 []).uniqueColours.head? = some (base : Int) ∧
      (lookForUniqueColours resp k n [] first0 []).firstColorNumber
        = (readResponse n (resp (probes n.toNat (base + 1)))).1 ∧
      1 ≤ (lookForUniqueColours resp k n [] first0 []).firstColorNumber ∧
      (lookForUniqueColours resp k n [] first0 []).firstColorNumber < n ∧
      2 ≤ (lookForUniqueColours resp k n [] first0 []).uniqueColours.length := by
  have hinit : LookInv resp n 0 0 [] first0 :=
    ⟨le_refl 0, List.Pairwise.nil, fun c hc => absurd hc (List.not_mem_nil c), fun _ => rfl,
      fun h => absurd rfl h⟩
  have h := lookLoop_success_inv resp k n (by omega) hn10 k.toNat 0 0 [] first0 hinit
    (by omega) (by omega)
  simp only [Nat.cast_zero] at h
  have hp0 : probes n.toNat 0 = [] := rfl
  rw [hp0] at h
  obtain ⟨j, hj, ⟨_, hsorted, hmem, _, hpos⟩, hkk, hout⟩ := h hok hnt
  obtain ⟨base, hhead, hfirst, hf1, hfn, _, hlen⟩ := hpos (by omega)
  have hbase : (base : Int) ∈ (lookForUniqueColours resp k n [] first0 []).uniqueColours :=
    List.mem_of_mem_head? hhead
  have hbj := (hmem _ hbase).2
  exact ⟨j, base, by omega, by omega, hout, hkk, hsorted, hmem, hhead, hfirst, hf1, hfn,
    hlen hfn⟩

theorem head_le_of_sorted (U : List Int) (base : Int) (hs : U.Pairwise (· < ·))
    (hh : U.head? = some base) : ∀ c ∈ U, base ≤ c := by
  cases U with
  | nil => simp at hh
  | cons a t =>
    simp only [List.head?_cons, Option.some.injEq] at hh
    intro c hc
    rcases List.mem_cons.mp hc with h | h
    · omega
    · have := List.rel_of_pairwise_cons hs h
      omega

theorem second_colour_of_sorted (U : List Int) (base : Int) (hs : U.Pairwise (· < ·))
    (hh : U.head? = some base) (hlen : 2 ≤ U.length) : ∃ c ∈ U, c ≠ base := by
  match U, hs, hh, hlen with
  | a :: b :: t, hs, hh, _ =>
    simp only [List.head?_cons, Option.some.injEq] at hh
    have := List.rel_of_pairwise_cons hs (List.mem_cons_self b t)
    exact ⟨b, List.mem_cons_of_mem _ (List.mem_cons_self b t), by omega⟩

/-- Claim C16: for every responder (hence every sequence of well-formed
responses) and `2 ≤ k ≤ 256`, `2 ≤ n ≤ 10`, whenever `lookForUniqueColours`
started on the empty set returns true without signalling the trivial case, the
first element `base` of `uniqueColours` (what `*uniqueColors.begin()` reads) is its
smallest colour, the probe of `base` was printed, and `firstColorNumber` is the
black count read in answer to that probe. -/
theorem firstColorNumber_is_base_count (resp : Responder) (k n first0 : Int)
    (hk : 2 ≤ k ∧ k ≤ 256) (hn : 2 ≤ n ∧ n ≤ 10)
    (hok : (lookForUniqueColours resp k n [] first0 []).ok = true)
    (hnt : (lookForUniqueColours resp k n [] first0 []).k ≠ 1) :
    ∃ base : Nat,
      (lookForUniqueColours resp k n [] first0 []).uniqueColours.head? = some (base : Int) ∧
      (∀ c ∈ (lookForUniqueColours resp k n [] first0 []).uniqueColours, (base : Int) ≤ c) ∧
      probes n.toNat (base + 1) <+: (lookForUniqueColours resp k n [] first0 []).out ∧
      (lookForUniqueColours resp k n [] first0 []).firstColorNumber
        = (readResponse n (resp (probes n.toNat (base + 1)))).1 := by
  obtain ⟨j, base, _, hbj, hout, _, hsorted, _, hhead, hfirst, _, _, _⟩ :=
    lookFor_success_state resp k n first0 hk.1 hn.1 hn.2 hok hnt
  refine ⟨base, hhead, head_le_of_sorted _ _ hsorted hhead, ?_, hfirst⟩
  rw [hout]
  exact probes_initial _ _ _ (by omega)

/-- Witness of claim C16: both probes answered `1 0`, with `k = 2`, `n = 2`. -/
theorem firstColorNumber_is_base_count_witness :
    ∃ base : Nat,
      (lookForUniqueColours (answering (fun _ => (1, 0))) 2 2 [] 1 []).uniqueColours.head?
        = some (base : Int) ∧
      (∀ c ∈ (lookForUniqueColours (answering (fun _ => (1, 0))) 2 2 [] 1 []).uniqueColours,
        (base : Int) ≤ c) ∧
      probes (2 : Int).toNat (base + 1)
        <+: (lookForUniqueColours (answering (fun _ => (1, 0))) 2 2 [] 1 []).out ∧
      (lookForUniqueColours (answering (fun _ => (1, 0))) 2 2 [] 1 []).firstColorNumber
        = (readResponse 2 (answering (fun _ => (1, 0)) (probes (2 : Int).toNat (base + 1)))).1 :=
  firstColorNumber_is_base_count (answering (fun _ => (1, 0))) 2 2 1 (by decide) (by decide)
    (by decide) (by decide)

/-- Claim C20: for every responder (hence every sequence of well-formed
responses, compliant or not) and `2 ≤ k ≤ 256`, `2 ≤ n ≤ 10`, whenever
`lookForUniqueColours` started on the empty set returns true without signalling
the trivial case, `uniqueColours` holds at least two colours (it is strictly
increasing), all of them in `[0, k)`, and `1 ≤ firstColorNumber ≤ n - 1`; so the
base `*uniqueColors.begin()` is defined and some colour other than the base is
there to be tested at every position. -/
theorem lookFor_success_shape (resp : Responder) (k n first0 : Int)
    (hk : 2 ≤ k ∧ k ≤ 256) (hn : 2 ≤ n ∧ n ≤ 10)
    (hok : (lookForUniqueColours resp k n [] first0 []).ok = true)
    (hnt : (lookForUniqueColours resp k n [] first0 []).k ≠ 1) :
    2 ≤ (lookForUniqueColours resp k n [] first0 []).uniqueColours.length ∧
    (lookForUniqueColours resp k n [] first0 []).uniqueColours.Pairwise (· < ·) ∧
    (∀ c ∈ (lookForUniqueColours resp k n [] first0 []).uniqueColours, 0 ≤ c ∧ c < k) ∧
    1 ≤ (lookForUniqueColours resp k n [] first0 []).firstColorNumber ∧
    (lookForUniqueColours resp k n [] first0 []).firstColorNumber ≤ n - 1 ∧
    ∃ base : Int,
      (lookForUniqueColours resp k n [] first0 []).uniqueColours.head? = some base ∧
      ∃ c ∈ (lookForUniqueColours resp k n [] first0 []).uniqueColours, c ≠ base := by
  obtain ⟨j, base, hjk, _, _, _, hsorted, hmem, hhead, _, hf1, hfn, hlen⟩ :=
    lookFor_success_state resp k n first0 hk.1 hn.1 hn.2 hok hnt
  refine ⟨hlen, hsorted, ?_, hf1, by omega, (base : Int), hhead,
    second_colour_of_sorted _ _ hsorted hhead hlen⟩
  intro c hc
  have := hmem c hc
  omega

/-- Witness of claim C20: both probes answered `1 0`, with `k = 2`, `n = 2`. -/
theorem lookFor_success_shape_witness :
    2 ≤ (lookForUniqueColours (answering (fun _ => (1, 0))) 2 2 [] 1 []).uniqueColours.length ∧
    1 ≤ (lookForUniqueColours (answering (fun _ => (1, 0))) 2 2 [] 1 []).firstColorNumber ∧
    (lookForUniqueColours (answering (fun _ => (1, 0))) 2 2 [] 1 []).firstColorNumber
      ≤ 2 - 1 := by
  have h := lookFor_success_shape (answering (fun _ => (1, 0))) 2 2 1 (by decide) (by decide)
    (by decide) (by decide)
  exact ⟨h.1, h.2.2.2.1, h.2.2.2.2.1⟩

/-! ## The positional loop against an arbitrary responder -/

theorem guessAnswer_cases (resp : Responder) (n : Int) (out : List (List Int))
    (guess : List Int) (hn10 : n ≤ 10) :
    (readResponse n (resp (out ++ [guess])) = (-1, -1) ∧
      guessAnswer resp n out guess = ⟨false, (-1, -1), out ++ [guess]⟩) ∨
    (0 ≤ (readResponse n (resp (out ++ [guess]))).1 ∧
      0 ≤ (readResponse n (resp (out ++ [guess]))).2 ∧
      (readResponse n (resp (out ++ [guess]))).1
        + (readResponse n (resp (out ++ [guess]))).2 ≤ n ∧
      guessAnswer resp n out guess
        = ⟨true, readResponse n (resp (out ++ [guess])), out ++ [guess]⟩) := by
  unfold guessAnswer
  rcases readResponse_cases n (resp (out ++ [guess])) hn10 with h | ⟨h1, h2, h3⟩
  · left
    refine ⟨h, ?_⟩
    simp [h]
  · right
    refine ⟨h1, h2, h3, ?_⟩
    have hne : ¬ ((readResponse n (resp (out ++ [guess]))).1 = -1 ∧
        (readResponse n (resp (out ++ [guess]))).2 = -1) := by omega
    simp only [hne, if_false]

/-- The candidate loop under any responder: when `main` returns inside it,
`answer` is untouched and the exit is either ERROR or a success right after a
guess answered `(n, 0)`; when the loop is left, `answer` is untouched or changed
at `pos` only. -/
theorem candidateLoop_general (resp : Responder) (n first base : Int) (pos : Nat)
    (hn10 : n ≤ 10) :
    ∀ (colours guess answer : List Int) (out : List (List Int)),
      (∀ s, candidateLoop resp n first base pos colours guess answer out = .returned s →
        s.answer = answer ∧
        (s.exit = Exit.error ∨
          (s.exit = Exit.success ∧ s.out ≠ [] ∧ readResponse n (resp s.out) = (n, 0)))) ∧
      (∀ g a o, candidateLoop resp n first base pos colours guess answer out = .left g a o →
        a = answer ∨ ∃ c, a = answer.set pos c) := by
  intro colours
  induction colours with
  | nil =>
    intro guess answer out
    rw [candidateLoop]
    refine ⟨fun s h => by simp at h, fun g a o h => ?_⟩
    simp only [LoopExit.left.injEq] at h
    exact Or.inl h.2.1.symm
  | cons color rest ih =>
    intro guess answer out
    rw [candidateLoop]
    by_cases hb : color = base
    · rw [if_pos hb]
      exact ih guess answer out
    · rw [if_neg hb]
      simp only
      rcases guessAnswer_cases resp n out (guess.set pos color) hn10 with
        ⟨_, h⟩ | ⟨h1, h2, h3, h⟩
      · rw [h]
        simp only [Bool.not_false, if_true]
        refine ⟨fun s hs => ?_, fun g a o hs => by simp at hs⟩
        simp only [LoopExit.returned.injEq] at hs
        rw [← hs]
        exact ⟨rfl, Or.inl rfl⟩
      · rw [h]
        simp only [Bool.not_true, Bool.false_eq_true, if_false]
        by_cases e1 : (readResponse n (resp (out ++ [guess.set pos color]))).1 = n
        · rw [if_pos e1]
          refine ⟨fun s hs => ?_, fun g a o hs => by simp at hs⟩
          simp only [LoopExit.returned.injEq] at hs
          rw [← hs]
          refine ⟨rfl, Or.inr ⟨rfl, by simp, ?_⟩⟩
          exact Prod.ext e1 (by simp only; omega)
        · rw [if_neg e1]
          by_cases e2 : (readResponse n (resp (out ++ [guess.set pos color]))).1 > first
          · rw [if_pos e2]
            refine ⟨fun s hs => by simp at hs, fun g a o hs => ?_⟩
            simp only [LoopExit.left.injEq] at hs
            exact Or.inr ⟨color, hs.2.1.symm⟩
          · rw [if_neg e2]
            by_cases e3 : (readResponse n (resp (out ++ [guess.set pos color]))).1 < first
            · rw [if_pos e3]
              refine ⟨fun s hs => by simp at hs, fun g a o hs => ?_⟩
              simp only [LoopExit.left.injEq] at hs
              exact Or.inr ⟨base, hs.2.1.symm⟩
            · rw [if_neg e3]
              exact ih _ answer _

/-- The position loop under any responder, entered at `pos` with the positions
below `pos` settled and the others still unknown: when `main` returns inside it
with success, the last guess was answered `(n, 0)` and `answer` still holds an
unknown marker; when the loop is left, no position of `answer` is unknown. -/
theorem positionLoop_general (resp : Responder) (n first : Int) (U : List Int) (N : Nat)
    (hn10 : n ≤ 10) (hN : n.toNat = N) :
    ∀ (rem pos : Nat) (answer : List Int) (out : List (List Int)),
      pos + rem = N → answer.length = N →
      (∀ j, j < pos → answer.getD j 0 ≠ -1) →
      (∀ j, pos ≤ j → j < N → answer.getD j 0 = -1) →
      (∀ s, positionLoop resp n first U rem pos answer out = .returned s →
        s.exit = Exit.success →
          s.out ≠ [] ∧ readResponse n (resp s.out) = (n, 0) ∧ (-1 : Int) ∈ s.answer) ∧
      (∀ g a o, positionLoop resp n first U rem pos answer out = .left g a o →
        a.length = N ∧ ∀ j, j < N → a.getD j 0 ≠ -1) := by
  intro rem
  induction rem with
  | zero =>
    intro pos answer out hp hlen hlow _
    rw [positionLoop]
    refine ⟨fun s h => by simp at h, fun g a o h => ?_⟩
    simp only [LoopExit.left.injEq] at h
    rw [← h.2.1]
    exact ⟨hlen, fun j hj => hlow j (by omega)⟩
  | succ r ih =>
    intro pos answer out hp hlen hlow hhigh
    have hposN : pos < N := by omega
    rw [positionLoop]
    cases hU : U.head? with
    | none =>
      simp only
      refine ⟨fun s h hs => ?_, fun g a o h => by simp at h⟩
      simp only [LoopExit.returned.injEq] at h
      rw [← h] at hs
      simp at hs
    | some base =>
      simp only
      obtain ⟨hret, hleft⟩ := candidateLoop_general resp n first base pos hn10 U
        (List.replicate n.toNat base) answer out
      cases hc : candidateLoop resp n first base pos U (List.replicate n.toNat base) answer out
        with
      | returned s0 =>
        simp only
        refine ⟨fun s h hs => ?_, fun g a o h => by simp at h⟩
        simp only [LoopExit.returned.injEq] at h
        obtain ⟨hans, hex⟩ := hret s0 hc
        rw [← h] at hs ⊢
        rcases hex with he | ⟨_, hne, hrep⟩
        · rw [he] at hs
          simp at hs
        · refine ⟨hne, hrep, ?_⟩
          rw [hans, ← hhigh pos (le_refl pos) hposN]
          exact getD_mem_of_lt answer pos (by omega)
      | left g0 a0 o0 =>
        simp only
        by_cases hm : a0.getD pos 0 = -1
        · rw [if_pos hm]
          refine ⟨fun s h hs => ?_, fun g a o h => by simp at h⟩
          simp only [LoopExit.returned.injEq] at h
          rw [← h] at hs
          simp at hs
        · rw [if_neg hm]
          have ha0 : a0 = answer ∨ ∃ c, a0 = answer.set pos c := hleft g0 a0 o0 hc
          have hlen0 : a0.length = N := by
            rcases ha0 with h | ⟨c, h⟩
            · rw [h]
              exact hlen
            · rw [h, List.length_set]
              exact hlen
          have hother : ∀ j, j ≠ pos → a0.getD j 0 = answer.getD j 0 := by
            intro j hj
            rcases ha0 with h | ⟨c, h⟩
            · rw [h]
            · rw [h, List.getD_eq_getElem?_getD, List.getD_eq_getElem?_getD,
                List.getElem?_set_ne (fun x => hj x.symm)]
          refine ih (pos + 1) a0 o0 (by omega) hlen0 ?_ ?_
          · intro j hj
            by_cases e : j = pos
            · rw [e]
              exact hm
            · rw [hother j e]
              exact hlow j (by omega)
          · intro j hj1 hj2
            rw [hother j (by omega)]
            exact hhigh j (by omega) hj2

/-! ## Whole sessions against an arbitrary responder -/

/-- When the probing loop signals the trivial case, the probe it has just
printed was answered `(n, 0)`. -/
theorem lookLoop_trivial_reply (resp : Responder) (k n : Int) (hk : k ≠ 1) (hn0 : 0 ≤ n)
    (hn10 : n ≤ 10) :
    ∀ (rem : Nat) (i counter : Int) (U : List Int) (first : Int) (out : List (List Int)),
      (lookLoop resp k n rem i counter U first out).k = 1 →
      (lookLoop resp k n rem i counter U first out).ok = true ∧
      (lookLoop resp k n rem i counter U first out).out ≠ [] ∧
      readResponse n (resp (lookLoop resp k n rem i counter U first out).out) = (n, 0) := by
  intro rem
  induction rem with
  | zero =>
    intro i counter U first out h
    rw [lookLoop] at h
    exact absurd h hk
  | succ r ih =>
    intro i counter U first out h
    rcases lookLoop_cases resp k n hn0 hn10 r i counter U first out _ _ rfl rfl with
      ⟨_, e⟩ | ⟨hR, e⟩ | ⟨_, _, _, e⟩ | ⟨_, _, _, _, e⟩ | ⟨_, _, _, _, e⟩
    · rw [e] at h
      exact absurd h hk
    · rw [e]
      exact ⟨rfl, by simp, hR⟩
    · rw [e] at h
      exact absurd h hk
    · rw [e] at h
      exact absurd h hk
    · rw [e] at h ⊢
      exact ih _ _ _ _ _ h

theorem codebreaker_of_fail (resp : Responder) (k n : Int)
    (h : (lookForUniqueColours resp k n [] 1 []).ok = false) :
    codebreaker resp k n
      = ⟨.error, (lookForUniqueColours resp k n [] 1 []).out, List.replicate n.toNat (-1)⟩ := by
  unfold codebreaker
  simp only [h, Bool.not_false, if_true]

theorem codebreaker_of_trivial (resp : Responder) (k n : Int)
    (h : (lookForUniqueColours resp k n [] 1 []).ok = true)
    (h1 : (lookForUniqueColours resp k n [] 1 []).k = 1) :
    codebreaker resp k n
      = ⟨.success, (lookForUniqueColours resp k n [] 1 []).out,
          List.replicate n.toNat (-1)⟩ := by
  unfold codebreaker
  simp only [h, h1, Bool.not_true, Bool.false_eq_true, if_false, if_true]

theorem codebreaker_of_returned (resp : Responder) (k n : Int) (s : Session)
    (h : (lookForUniqueColours resp k n [] 1 []).ok = true)
    (h1 : (lookForUniqueColours resp k n [] 1 []).k ≠ 1)
    (hp : positionLoop resp n (lookForUniqueColours resp k n [] 1 []).firstColorNumber
      (lookForUniqueColours resp k n [] 1 []).uniqueColours n.toNat 0
      (List.replicate n.toNat (-1)) (lookForUniqueColours resp k n [] 1 []).out
        = .returned s) :
    codebreaker resp k n = s := by
  unfold codebreaker
  simp only [h, h1, hp, Bool.not_true, Bool.false_eq_true, if_false]

theorem codebreaker_of_left (resp : Responder) (k n : Int) (g a : List Int)
    (o : List (List Int))
    (h : (lookForUniqueColours resp k n [] 1 []).ok = true)
    (h1 : (lookForUniqueColours resp k n [] 1 []).k ≠ 1)
    (hp : positionLoop resp n (lookForUniqueColours resp k n [] 1 []).firstColorNumber
      (lookForUniqueColours resp k n [] 1 []).uniqueColours n.toNat 0
      (List.replicate n.toNat (-1)) (lookForUniqueColours resp k n [] 1 []).out
        = .left g a o) :
    codebreaker resp k n
      = if (readResponse n (resp (o ++ [a]))).1 ≠ n ∨ (readResponse n (resp (o ++ [a]))).2 ≠ 0
        then ⟨.error, o ++ [a], a⟩ else ⟨.success, o ++ [a], a⟩ := by
  unfold codebreaker
  simp only [h, h1, hp, Bool.not_true, Bool.false_eq_true, if_false]

theorem not_mem_of_getD_ne (a : List Int) (x : Int) (h : ∀ j, j < a.length → a.getD j 0 ≠ x) :
    x ∉ a := by
  intro hx
  obtain ⟨j, hj, e⟩ := List.getElem_of_mem hx
  exact h j hj (by rw [List.getD_eq_getElem _ _ hj]; exact e)

/-- Every way a codebreaker session can end with success: the last guess printed
was answered `(n, 0)`, and the session is the trivial case, or it stopped inside
the positional loop with an unknown marker left in `answer`, or `answer` holds no
unknown marker and is the last guess printed. -/
theorem codebreaker_success_cases (resp : Responder) (k n : Int) (hk : 2 ≤ k) (hn : 2 ≤ n)
    (hn10 : n ≤ 10) (hs : (codebreaker resp k n).exit = Exit.success) :
    (codebreaker resp k n).out ≠ [] ∧
    readResponse n (resp (codebreaker resp k n).out) = (n, 0) ∧
    ((lookForUniqueColours resp k n [] 1 []).k = 1 ∨
      ((lookForUniqueColours resp k n [] 1 []).k ≠ 1 ∧
        ((-1 : Int) ∈ (codebreaker resp k n).answer ∨
          ((-1 : Int) ∉ (codebreaker resp k n).answer ∧
            (codebreaker resp k n).answer.length = n.toNat ∧
            (codebreaker resp k n).out.getLast? = some (codebreaker resp k n).answer)))) := by
  cases hok : (lookForUniqueColours resp k n [] 1 []).ok with
  | false =>
    rw [codebreaker_of_fail resp k n hok] at hs
    simp at hs
  | true =>
    by_cases h1 : (lookForUniqueColours resp k n [] 1 []).k = 1
    · have ht := lookLoop_trivial_reply resp k n (by omega) (by omega) hn10 k.toNat 0 0 [] 1 []
        h1
      rw [codebreaker_of_trivial resp k n hok h1]
      exact ⟨ht.2.1, ht.2.2, Or.inl h1⟩
    · obtain ⟨hret, hleft⟩ := positionLoop_general resp n
        (lookForUniqueColours resp k n [] 1 []).firstColorNumber
        (lookForUniqueColours resp k n [] 1 []).uniqueColours n.toNat hn10 rfl n.toNat 0
        (List.replicate n.toNat (-1)) (lookForUniqueColours resp k n [] 1 []).out
        (by omega) (by rw [List.length_replicate])
        (fun j hj => absurd hj (Nat.not_lt_zero j))
        (fun j _ hj => getD_replicate_of_lt _ _ _ hj)
      cases hp : positionLoop resp n (lookForUniqueColours resp k n [] 1 []).firstColorNumber
          (lookForUniqueColours resp k n [] 1 []).uniqueColours n.toNat 0
          (List.replicate n.toNat (-1)) (lookForUniqueColours resp k n [] 1 []).out with
      | returned s =>
        have e := codebreaker_of_returned resp k n s hok h1 hp
        rw [e] at hs ⊢
        obtain ⟨h2, h3, h4⟩ := hret s hp hs
        exact ⟨h2, h3, Or.inr ⟨h1, Or.inl h4⟩⟩
      | left g a o =>
        have e := codebreaker_of_left resp k n g a o hok h1 hp
        obtain ⟨hlen, hno⟩ := hleft g a o hp
        by_cases hc : (readResponse n (resp (o ++ [a]))).1 ≠ n ∨
            (readResponse n (resp (o ++ [a]))).2 ≠ 0
        · rw [if_pos hc] at e
          rw [e] at hs
          simp at hs
        · rw [if_neg hc] at e
          rw [e]
          have hr : readResponse n (resp (o ++ [a])) = (n, 0) :=
            Prod.ext (by simp only; omega) (by simp only; omega)
          refine ⟨by simp, hr, Or.inr ⟨h1, Or.inr ⟨?_, hlen, by simp⟩⟩⟩
          exact not_mem_of_getD_ne a (-1) (fun j hj => hno j (by omega))

/-! ## Codemaker mode -/

theorem validColours_iff (k : Int) :
    ∀ guess : List Int, validColours k guess = true ↔ ∀ c ∈ guess, 0 ≤ c ∧ c < k := by
  intro guess
  induction guess with
  | nil => simp [validColours]
  | cons a t ih =>
    rw [validColours]
    by_cases h : a < 0 ∨ a ≥ k
    · rw [if_pos h]
      constructor
      · intro hf
        exact absurd hf (by decide)
      · intro hall
        have := hall a (List.mem_cons_self _ _)
        omega
    · rw [if_neg h, ih]
      constructor
      · intro hall c hc
        rcases List.mem_cons.mp hc with e | e
        · rw [e]
          omega
        · exact hall c e
      · intro hall c hc
        exact hall c (List.mem_cons_of_mem _ hc)

theorem codemakerLoop_bad (k n : Int) (secret : List Int) (line : Line) (rest : List Line)
    (scored : List (List Int)) (out : List (Int × Int))
    (h : ¬ ((parseNumbers line (-1)).1 = true ∧
      isValidGuess (parseNumbers line (-1)).2 k n = true)) :
    codemakerLoop k n secret (line :: rest) scored out = ⟨.error, scored, out⟩ := by
  rw [codemakerLoop]
  simp only
  have hc : (!(parseNumbers line (-1)).1 || !isValidGuess (parseNumbers line (-1)).2 k n)
      = true := by
    cases h1 : (parseNumbers line (-1)).1
    · rfl
    · cases h2 : isValidGuess (parseNumbers line (-1)).2 k n
      · rfl
      · exact absurd ⟨h1, h2⟩ h
  rw [if_pos hc]

theorem codemakerLoop_good (k n : Int) (secret : List Int) (line : Line) (rest : List Line)
    (scored : List (List Int)) (out : List (Int × Int))
    (h1 : (parseNumbers line (-1)).1 = true)
    (h2 : isValidGuess (parseNumbers line (-1)).2 k n = true) :
    codemakerLoop k n secret (line :: rest) scored out
      = if (calculateResponse secret (parseNumbers line (-1)).2).1 = n ∧
            (calculateResponse secret (parseNumbers line (-1)).2).2 = 0
        then ⟨.success, scored ++ [(parseNumbers line (-1)).2],
          out ++ [calculateResponse secret (parseNumbers line (-1)).2]⟩
        else codemakerLoop k n secret rest (scored ++ [(parseNumbers line (-1)).2])
          (out ++ [calculateResponse secret (parseNumbers line (-1)).2]) := by
  rw [codemakerLoop]
  simp only [h1, h2, Bool.not_true, Bool.or_self, Bool.false_eq_true, if_false]

/-- The codemaker loop run over valid guesses none of which is a match: each is
scored and answered, and the loop goes on with the lines that follow. -/
theorem codemakerLoop_append (k n : Int) (secret : List Int) (tail : List Line) :
    ∀ (pre : List Line) (scored : List (List Int)) (out : List (Int × Int)),
      (∀ l ∈ pre, ((parseNumbers l (-1)).1 = true ∧
          isValidGuess (parseNumbers l (-1)).2 k n = true) ∧
        ¬ ((calculateResponse secret (parseNumbers l (-1)).2).1 = n ∧
          (calculateResponse secret (parseNumbers l (-1)).2).2 = 0)) →
      codemakerLoop k n secret (pre ++ tail) scored out
        = codemakerLoop k n secret tail
            (scored ++ pre.map (fun l => (parseNumbers l (-1)).2))
            (out ++ pre.map (fun l => calculateResponse secret (parseNumbers l (-1)).2)) := by
  intro pre
  induction pre with
  | nil =>
    intro scored out _
    simp
  | cons a t ih =>
    intro scored out h
    obtain ⟨⟨h1, h2⟩, h3⟩ := h a (List.mem_cons_self _ _)
    rw [List.cons_append, codemakerLoop_good k n secret a _ scored out h1 h2, if_neg h3,
      ih _ _ (fun l hl => h l (List.mem_cons_of_mem _ hl))]
    simp

/-- The codemaker loop when no response it prints is a match: it ends in ERROR
exactly when a line is malformed or not a valid guess, and with success exactly
when every line is a valid guess. -/
theorem codemakerLoop_exit (k n : Int) (secret : List Int) :
    ∀ (input : List Line) (scored : List (List Int)) (out : List (Int × Int)),
      (∀ r ∈ (codemakerLoop k n secret input scored out).out, ¬ (r.1 = n ∧ r.2 = 0)) →
      ((codemakerLoop k n secret input scored out).exit = Exit.error ↔
        ∃ l ∈ input, ¬ ((parseNumbers l (-1)).1 = true ∧
          isValidGuess (parseNumbers l (-1)).2 k n = true)) ∧
      ((codemakerLoop k n secret input scored out).exit = Exit.success ↔
        ∀ l ∈ input, (parseNumbers l (-1)).1 = true ∧
          isValidGuess (parseNumbers l (-1)).2 k n = true) := by
  intro input
  induction input with
  | nil =>
    intro scored out _
    rw [codemakerLoop]
    simp
  | cons a t ih =>
    intro scored out hno
    by_cases hg : (parseNumbers a (-1)).1 = true ∧
        isValidGuess (parseNumbers a (-1)).2 k n = true
    · have e := codemakerLoop_good k n secret a t scored out hg.1 hg.2
      by_cases hm : (calculateResponse secret (parseNumbers a (-1)).2).1 = n ∧
          (calculateResponse secret (parseNumbers a (-1)).2).2 = 0
      · rw [if_pos hm] at e
        rw [e] at hno
        exact absurd hm (hno _ (by simp))
      · rw [if_neg hm] at e
        rw [e] at hno ⊢
        obtain ⟨h1, h2⟩ := ih _ _ hno
        rw [h1, h2]
        constructor
        · constructor
          · rintro ⟨l, hl, hb⟩
            exact ⟨l, List.mem_cons_of_mem _ hl, hb⟩
          · rintro ⟨l, hl, hb⟩
            rcases List.mem_cons.mp hl with e1 | e1
            · rw [e1] at hb
              exact absurd hg hb
            · exact ⟨l, e1, hb⟩
        · constructor
          · intro hall l hl
            rcases List.mem_cons.mp hl with e1 | e1
            · rw [e1]
              exact hg
            · exact hall l e1
          · intro hall l hl
            exact hall l (List.mem_cons_of_mem _ hl)
    · rw [codemakerLoop_bad k n secret a t scored out hg]
      constructor
      · simp only [true_iff]
        exact ⟨a, List.mem_cons_self _ _, hg⟩
      · constructor
        · intro h
          simp at h
        · intro hall
          exact absurd (hall a (List.mem_cons_self _ _)) hg

theorem codemakerLoop_out (k n : Int) (secret : List Int) :
    ∀ (input : List Line) (scored : List (List Int)) (out : List (Int × Int)),
      (∀ r ∈ (codemakerLoop k n secret input scored out).out, ¬ (r.1 = n ∧ r.2 = 0)) →
      (∀ l ∈ input, (parseNumbers l (-1)).1 = true ∧
        isValidGuess (parseNumbers l (-1)).2 k n = true) →
      (codemakerLoop k n secret input scored out).out
        = out ++ input.map (fun l => calculateResponse secret (parseNumbers l (-1)).2) := by
  intro input
  induction input with
  | nil =>
    intro scored out _ _
    rw [codemakerLoop]
    simp
  | cons a t ih =>
    intro scored out hno hall
    have ha := hall a (List.mem_cons_self _ _)
    have e := codemakerLoop_good k n secret a t scored out ha.1 ha.2
    by_cases hm : (calculateResponse secret (parseNumbers a (-1)).2).1 = n ∧
        (calculateResponse secret (parseNumbers a (-1)).2).2 = 0
    · rw [if_pos hm] at e
      rw [e] at hno
      exact absurd hm (hno _ (by simp))
    · rw [if_neg hm] at e
      rw [e] at hno ⊢
      rw [ih _ _ hno (fun l hl => hall l (List.mem_cons_of_mem _ hl))]
      simp

set_option maxRecDepth 100000 in
/-- The guess `[1, 1]` scored against the secret `[0, 1]`. -/
theorem score_0_1_eval : calculateResponse [0, 1] [1, 1] = (1, 0) := by
  decide

/-- The codemaker session with secret `[0, 1]` on the single guess line `1 1`. -/
theorem maker_0_1_eval :
    codemaker 2 2 [0, 1] [Line.tokens [1, 1]] = ⟨.success, [[1, 1]], [(1, 0)]⟩ := by
  unfold codemaker
  rw [codemakerLoop_good 2 2 [0, 1] _ _ _ _ (by decide) (by decide)]
  have e : calculateResponse [0, 1] (parseNumbers (Line.tokens [1, 1]) (-1)).2 = (1, 0) :=
    score_0_1_eval
  rw [e]
  rfl

/-! ## The claims on whole sessions and on codemaker mode -/

/-- A response that `readResponse` returns with a non-negative black count was
read from a well-formed line made of exactly these two numbers. -/
theorem readResponse_line (n : Int) (input : Option Line) (b w : Int) (hb : 0 ≤ b)
    (h : readResponse n input = (b, w)) : input = some (Line.tokens [b, w]) := by
  have hne : ((-1 : Int), (-1 : Int)) ≠ (b, w) := by
    intro e
    have := congrArg Prod.fst e
    simp only at this
    omega
  cases input with
  | none => exact absurd h hne
  | some line =>
    cases line with
    | malformed xs => exact absurd h hne
    | tokens xs =>
      unfold readResponse parseNumbers at h
      simp only at h
      by_cases hl : (2 : Int) ≠ -1 ∧ (xs.length : Int) ≠ 2
      · rw [if_pos hl] at h
        exact absurd h hne
      · rw [if_neg hl] at h
        have hlen : xs.length = 2 := by omega
        match xs, hlen with
        | [x, y], _ =>
          simp only [List.isEmpty_cons, Bool.not_false, Bool.not_true, Bool.false_eq_true,
            if_false, List.getD_cons_zero, List.getD_cons_succ] at h
          split at h
          · exact absurd h hne
          · simp only [Prod.mk.injEq] at h
            rw [h.1, h.2]

set_option maxRecDepth 100000 in
/-- The session against the compliant responder holding `[0, 1]`, run in full. -/
theorem session_0_1_eval :
    codebreaker (compliant [0, 1]) 2 2
      = ⟨.success, [[0, 0], [1, 1], [1, 0], [0, 1]], [0, -1]⟩ := by
  decide

set_option maxRecDepth 100000 in
/-- The probing phase against the compliant responder holding `[0, 1]`. -/
theorem probing_0_1_eval :
    lookForUniqueColours (compliant [0, 1]) 2 2 [] 1 []
      = ⟨true, 2, [0, 1], 1, [[0, 0], [1, 1]]⟩ := by
  decide

/-- Claim C13 fails as stated: with `k = 2`, `n = 2`, secret `[0, 1]` and the
single guess line `1 1`, the guess is answered `1 0`, which is no match, the input
ends, and the codemaker session ends with success, not in ERROR. -/
theorem codemaker_end_of_input_not_error :
    (codemaker 2 2 [0, 1] [Line.tokens [1, 1]]).out = [(1, 0)] ∧
    (codemaker 2 2 [0, 1] [Line.tokens [1, 1]]).exit = Exit.success ∧
    ¬ ((codemaker 2 2 [0, 1] [Line.tokens [1, 1]]).exit = Exit.error) := by
  rw [maker_0_1_eval]
  exact ⟨rfl, rfl, by decide⟩

/-- Claim C13 as amended: in codemaker mode, for a finite input during which no
printed response is a match, the session ends in ERROR if and only if some line
is malformed or not a valid guess, and it ends with success (the `return 0`
after the loop) if and only if every line is a valid guess; in that case every
guess has been answered with its response. -/
theorem codemaker_end_of_input (k n : Int) (secret : List Int) (input : List Line)
    (hno : ∀ r ∈ (codemaker k n secret input).out, ¬ (r.1 = n ∧ r.2 = 0)) :
    ((codemaker k n secret input).exit = Exit.error ↔
      ∃ l ∈ input, ¬ ((parseNumbers l (-1)).1 = true ∧
        isValidGuess (parseNumbers l (-1)).2 k n = true)) ∧
    ((codemaker k n secret input).exit = Exit.success ↔
      ∀ l ∈ input, (parseNumbers l (-1)).1 = true ∧
        isValidGuess (parseNumbers l (-1)).2 k n = true) ∧
    ((∀ l ∈ input, (parseNumbers l (-1)).1 = true ∧
        isValidGuess (parseNumbers l (-1)).2 k n = true) →
      (codemaker k n secret input).out
        = input.map (fun l => calculateResponse secret (parseNumbers l (-1)).2)) := by
  obtain ⟨h1, h2⟩ := codemakerLoop_exit k n secret input [] [] hno
  refine ⟨h1, h2, ?_⟩
  intro hall
  have := codemakerLoop_out k n secret input [] [] hno hall
  rw [List.nil_append] at this
  exact this

/-- Witness of claim C13 as amended: `k = 2`, `n = 2`, secret `[0, 1]`, the single
guess line `1 1`. -/
theorem codemaker_end_of_input_witness :
    (codemaker 2 2 [0, 1] [Line.tokens [1, 1]]).exit = Exit.success ↔
      ∀ l ∈ [Line.tokens [1, 1]], (parseNumbers l (-1)).1 = true ∧
        isValidGuess (parseNumbers l (-1)).2 2 2 = true :=
  (codemaker_end_of_input 2 2 [0, 1] [Line.tokens [1, 1]] (by
    rw [maker_0_1_eval]
    decide)).2.1

/-- Claim C14: for `n` an `int` and a guess shorter than `2^63` elements,
`isValidGuess(guess, k, n)` returns true if and only if the guess has exactly `n`
elements, each in `[0, k)`; and in codemaker mode, after any valid guesses none
of which was a match, a line that parses to a guess for which it returns false
ends the session in ERROR with no guess scored and no response printed beyond
those of the earlier guesses. -/
theorem isValidGuess_spec (guess : List Int) (k n : Int)
    (hn : -(2 ^ 31) ≤ n ∧ n < 2 ^ 31) (hsize : (guess.length : Int) < 2 ^ 63) :
    (isValidGuess guess k n = true ↔
      (guess.length : Int) = n ∧ ∀ c ∈ guess, 0 ≤ c ∧ c < k) ∧
    ∀ (secret : List Int) (pre rest : List Line) (line : Line),
      (∀ l ∈ pre, ((parseNumbers l (-1)).1 = true ∧
          isValidGuess (parseNumbers l (-1)).2 k n = true) ∧
        ¬ ((calculateResponse secret (parseNumbers l (-1)).2).1 = n ∧
          (calculateResponse secret (parseNumbers l (-1)).2).2 = 0)) →
      (parseNumbers line (-1)).1 = true →
      isValidGuess (parseNumbers line (-1)).2 k n = false →
      codemaker k n secret (pre ++ line :: rest)
        = ⟨.error, pre.map (fun l => (parseNumbers l (-1)).2),
            pre.map (fun l => calculateResponse secret (parseNumbers l (-1)).2)⟩ := by
  constructor
  · unfold isValidGuess toSizeT
    by_cases hlen : (guess.length : Int) = n
    · have e : ¬ ((guess.length : Int) ≠ n % 2 ^ 64) := by omega
      rw [if_neg e, validColours_iff]
      exact ⟨fun h => ⟨hlen, h⟩, fun h => h.2⟩
    · have e : (guess.length : Int) ≠ n % 2 ^ 64 := by omega
      rw [if_pos e]
      constructor
      · intro h
        exact absurd h (by decide)
      · intro h
        exact absurd h.1 hlen
  · intro secret pre rest line hpre _ hbad
    unfold codemaker
    rw [codemakerLoop_append k n secret (line :: rest) pre [] [] hpre,
      codemakerLoop_bad k n secret line rest _ _ (by rw [hbad]; simp)]
    simp

/-- Witness of claim C14: `k = 8`, `n = 3`; the guess `[0, 1, 7]` is valid, and
the line `0 9 1` read first ends the session in ERROR with nothing printed. -/
theorem isValidGuess_spec_witness :
    (isValidGuess [0, 1, 7] 8 3 = true ↔
      (([0, 1, 7] : List Int).length : Int) = 3 ∧ ∀ c ∈ [(0 : Int), 1, 7], 0 ≤ c ∧ c < 8) ∧
    codemaker 8 3 [0, 1, 2] ([] ++ Line.tokens [0, 9, 1] :: [])
      = ⟨.error, [].map (fun l => (parseNumbers l (-1)).2),
          [].map (fun l => calculateResponse [0, 1, 2] (parseNumbers l (-1)).2)⟩ :=
  ⟨(isValidGuess_spec [0, 1, 7] 8 3 (by decide) (by decide)).1,
    (isValidGuess_spec [0, 1, 7] 8 3 (by decide) (by decide)).2 [0, 1, 2] [] []
      (Line.tokens [0, 9, 1]) (fun l hl => absurd hl (List.not_mem_nil l)) (by decide)
      (by decide)⟩

/-- A positional probe built from non-negative colours holds no unknown marker. -/
theorem probe_has_no_marker (N pos : Nat) (base color : Int) (hb : 0 ≤ base)
    (hc : 0 ≤ color) : (-1 : Int) ∉ (List.replicate N base).set pos color := by
  intro h
  rcases List.mem_or_eq_of_mem_set h with h1 | h1
  · have := List.eq_of_mem_replicate h1
    omega
  · omega

/-- The guesses printed by the candidate loop: with non-negative colours, no
guess printed holds the unknown marker, and when `main` returns with success
inside the loop the last guess printed is the positional probe of one of the
colours visited. -/
theorem candidateLoop_trace (resp : Responder) (n first base : Int) (pos N : Nat)
    (hn10 : n ≤ 10) (hbase : 0 ≤ base) :
    ∀ (colours guess answer : List Int) (out : List (List Int)),
      (∀ c ∈ colours, 0 ≤ c) →
      (∀ col : Int, guess.set pos col = (List.replicate N base).set pos col) →
      (∀ g ∈ out, (-1 : Int) ∉ g) →
      (∀ s, candidateLoop resp n first base pos colours guess answer out = .returned s →
        (∀ g ∈ s.out, (-1 : Int) ∉ g) ∧
        (s.exit = Exit.success → ∃ color ∈ colours, color ≠ base ∧
          s.out.getLast? = some ((List.replicate N base).set pos color))) ∧
      (∀ g a o, candidateLoop resp n first base pos colours guess answer out = .left g a o →
        ∀ g1 ∈ o, (-1 : Int) ∉ g1) := by
  intro colours
  induction colours with
  | nil =>
    intro guess answer out _ _ hout
    rw [candidateLoop]
    refine ⟨fun s h => by simp at h, fun g a o h => ?_⟩
    simp only [LoopExit.left.injEq] at h
    rw [← h.2.2]
    exact hout
  | cons color rest ih =>
    intro guess answer out hcol hg hout
    have hrest : ∀ c ∈ rest, 0 ≤ c := fun c hc => hcol c (List.mem_cons_of_mem _ hc)
    rw [candidateLoop]
    by_cases hb : color = base
    · rw [if_pos hb]
      obtain ⟨h1, h2⟩ := ih guess answer out hrest hg hout
      refine ⟨fun s hs => ?_, h2⟩
      obtain ⟨h3, h4⟩ := h1 s hs
      refine ⟨h3, fun hx => ?_⟩
      obtain ⟨c, hc, hcb, hl⟩ := h4 hx
      exact ⟨c, List.mem_cons_of_mem _ hc, hcb, hl⟩
    · rw [if_neg hb]
      simp only
      have hout1 : ∀ g ∈ out ++ [guess.set pos color], (-1 : Int) ∉ g := by
        intro g hgm
        rcases List.mem_append.mp hgm with h | h
        · exact hout g h
        · rw [List.mem_singleton] at h
          rw [h, hg color]
          exact probe_has_no_marker N pos base color hbase (hcol color (List.mem_cons_self _ _))
      have hlast : (out ++ [guess.set pos color]).getLast?
          = some ((List.replicate N base).set pos color) := by
        rw [hg color]
        simp
      rcases guessAnswer_cases resp n out (guess.set pos color) hn10 with
        ⟨_, h⟩ | ⟨h1, h2, h3, h⟩
      · rw [h]
        simp only [Bool.not_false, if_true]
        refine ⟨fun s hs => ?_, fun g a o hs => by simp at hs⟩
        simp only [LoopExit.returned.injEq] at hs
        rw [← hs]
        exact ⟨hout1, fun hx => by simp at hx⟩
      · rw [h]
        simp only [Bool.not_true, Bool.false_eq_true, if_false]
        by_cases e1 : (readResponse n (resp (out ++ [guess.set pos color]))).1 = n
        · rw [if_pos e1]
          refine ⟨fun s hs => ?_, fun g a o hs => by simp at hs⟩
          simp only [LoopExit.returned.injEq] at hs
          rw [← hs]
          exact ⟨hout1, fun _ => ⟨color, List.mem_cons_self _ _, hb, hlast⟩⟩
        · rw [if_neg e1]
          by_cases e2 : (readResponse n (resp (out ++ [guess.set pos color]))).1 > first
          · rw [if_pos e2]
            refine ⟨fun s hs => by simp at hs, fun g a o hs => ?_⟩
            simp only [LoopExit.left.injEq] at hs
            rw [← hs.2.2]
            exact hout1
          · rw [if_neg e2]
            by_cases e3 : (readResponse n (resp (out ++ [guess.set pos color]))).1 < first
            · rw [if_pos e3]
              refine ⟨fun s hs => by simp at hs, fun g a o hs => ?_⟩
              simp only [LoopExit.left.injEq] at hs
              rw [← hs.2.2]
              exact hout1
            · rw [if_neg e3]
              obtain ⟨h4, h5⟩ := ih (guess.set pos color) answer
                (out ++ [guess.set pos color]) hrest
                (fun col => by rw [List.set_set, hg col]) hout1
              refine ⟨fun s hs => ?_, h5⟩
              obtain ⟨h6, h7⟩ := h4 s hs
              refine ⟨h6, fun hx => ?_⟩
              obtain ⟨c, hc, hcb, hl⟩ := h7 hx
              exact ⟨c, List.mem_cons_of_mem _ hc, hcb, hl⟩

/-- The position loop when `main` returns with success inside it, the colours
being non-negative and no guess printed before holding the unknown marker: the
last guess printed is a positional probe (the base colour everywhere, another
colour of the set at one position `p`), `answer` is still unknown at `p`, and
`answer` is none of the guesses printed. -/
theorem positionLoop_trace (resp : Responder) (n first : Int) (U : List Int) (hn10 : n ≤ 10)
    (hU : ∀ c ∈ U, 0 ≤ c) :
    ∀ (rem pos : Nat) (answer : List Int) (out : List (List Int)),
      pos + rem = n.toNat → answer.length = n.toNat →
      (∀ j, pos ≤ j → j < n.toNat → answer.getD j 0 = -1) →
      (∀ g ∈ out, (-1 : Int) ∉ g) →
      ∀ s, positionLoop resp n first U rem pos answer out = .returned s →
        s.exit = Exit.success →
        s.answer ∉ s.out ∧
        ∃ (p : Nat) (color base : Int), p < n.toNat ∧ U.head? = some base ∧ color ∈ U ∧
          color ≠ base ∧ s.out.getLast? = some ((List.replicate n.toNat base).set p color) ∧
          s.answer.getD p 0 = -1 := by
  intro rem
  induction rem with
  | zero =>
    intro pos answer out _ _ _ _ s h
    rw [positionLoop] at h
    simp at h
  | succ r ih =>
    intro pos answer out hp hlen hhigh hout s h hs
    have hposN : pos < n.toNat := by omega
    rw [positionLoop] at h
    cases hhead : U.head? with
    | none =>
      rw [hhead] at h
      simp only [LoopExit.returned.injEq] at h
      rw [← h] at hs
      simp at hs
    | some base =>
      rw [hhead] at h
      simp only at h
      have hbase : 0 ≤ base := hU base (List.mem_of_mem_head? hhead)
      obtain ⟨hret, hleft⟩ := candidateLoop_general resp n first base pos hn10 U
        (List.replicate n.toNat base) answer out
      obtain ⟨hret2, hleft2⟩ := candidateLoop_trace resp n first base pos n.toNat hn10 hbase U
        (List.replicate n.toNat base) answer out hU (fun _ => rfl) hout
      cases hc : candidateLoop resp n first base pos U (List.replicate n.toNat base) answer out
        with
      | returned s0 =>
        rw [hc] at h
        simp only [LoopExit.returned.injEq] at h
        rw [← h] at hs ⊢
        obtain ⟨hans, _⟩ := hret s0 hc
        obtain ⟨hclean, hprobe⟩ := hret2 s0 hc
        obtain ⟨color, hcU, hcb, hl⟩ := hprobe hs
        have hmark : answer.getD pos 0 = -1 := hhigh pos (le_refl pos) hposN
        refine ⟨?_, pos, color, base, hposN, rfl, hcU, hcb, hl, by rw [hans]; exact hmark⟩
        intro hmem
        apply hclean _ hmem
        rw [hans, ← hmark]
        exact getD_mem_of_lt answer pos (by omega)
      | left g0 a0 o0 =>
        rw [hc] at h
        simp only at h
        by_cases hm : a0.getD pos 0 = -1
        · rw [if_pos hm] at h
          simp only [LoopExit.returned.injEq] at h
          rw [← h] at hs
          simp at hs
        · rw [if_neg hm] at h
          have ha0 : a0 = answer ∨ ∃ c, a0 = answer.set pos c := hleft g0 a0 o0 hc
          have hlen0 : a0.length = n.toNat := by
            rcases ha0 with e | ⟨c, e⟩
            · rw [e]
              exact hlen
            · rw [e, List.length_set]
              exact hlen
          have hother : ∀ j, j ≠ pos → a0.getD j 0 = answer.getD j 0 := by
            intro j hj
            rcases ha0 with e | ⟨c, e⟩
            · rw [e]
            · rw [e, List.getD_eq_getElem?_getD, List.getD_eq_getElem?_getD,
                List.getElem?_set_ne (fun x => hj x.symm)]
          have res := ih (pos + 1) a0 o0 (by omega) hlen0
            (fun j hj1 hj2 => by
              rw [hother j (by omega)]
              exact hhigh j (by omega) hj2)
            (hleft2 g0 a0 o0 hc) s h hs
          rw [hhead] at res
          exact res

theorem probes_have_no_marker (N j : Nat) : ∀ g ∈ probes N j, (-1 : Int) ∉ g := by
  intro g hg hmem
  unfold probes at hg
  obtain ⟨i, _, rfl⟩ := List.mem_map.mp hg
  have := List.eq_of_mem_replicate hmem
  omega

/-- Claim C15 fails as stated: against the compliant responder holding `[0, 1]`
with `k = 2`, `n = 2`, the session ends with success without the trivial case
(`k` is still 2 after probing), yet `answer` is `[0, -1]` and was never sent: the
positional probe `[0, 1]` scored `n` black pegs and `main` returned at once. -/
theorem early_success_leaves_unknown :
    (codebreaker (compliant [0, 1]) 2 2).exit = Exit.success ∧
    (lookForUniqueColours (compliant [0, 1]) 2 2 [] 1 []).k ≠ 1 ∧
    ¬ ((-1 : Int) ∉ (codebreaker (compliant [0, 1]) 2 2).answer ∧
      (codebreaker (compliant [0, 1]) 2 2).out.getLast?
        = some (codebreaker (compliant [0, 1]) 2 2).answer) := by
  rw [session_0_1_eval, probing_0_1_eval]
  decide

/-- Claim C15 as amended: for every responder and `2 ≤ k ≤ 256`, `2 ≤ n ≤ 10`, in
every session that ends with success without the trivial case the last guess
printed was answered exactly `(n, 0)`, and one of two things happened.  Either
`main` returned inside the positional loop: the last guess printed is a
positional probe (the base colour everywhere, another colour of the set at one
position `p`), `answer` still holds the unknown marker `-1` at `p`, and `answer`
is none of the guesses printed, so no verification guess was sent.  Or the
positional loop was left: `answer` has `n` entries, none of them `-1`, and was
printed as the last guess, the verification guess. -/
theorem codebreaker_terminal (resp : Responder) (k n : Int)
    (hk : 2 ≤ k ∧ k ≤ 256) (hn : 2 ≤ n ∧ n ≤ 10)
    (hs : (codebreaker resp k n).exit = Exit.success)
    (hnt : (lookForUniqueColours resp k n [] 1 []).k ≠ 1) :
    readResponse n (resp (codebreaker resp k n).out) = (n, 0) ∧
    ((positionLoop resp n (lookForUniqueColours resp k n [] 1 []).firstColorNumber
          (lookForUniqueColours resp k n [] 1 []).uniqueColours n.toNat 0
          (List.replicate n.toNat (-1)) (lookForUniqueColours resp k n [] 1 []).out
        = .returned (codebreaker resp k n) ∧
      (-1 : Int) ∈ (codebreaker resp k n).answer ∧
      (codebreaker resp k n).answer ∉ (codebreaker resp k n).out ∧
      ∃ (p : Nat) (color base : Int), p < n.toNat ∧
        (lookForUniqueColours resp k n [] 1 []).uniqueColours.head? = some base ∧
        color ∈ (lookForUniqueColours resp k n [] 1 []).uniqueColours ∧ color ≠ base ∧
        (codebreaker resp k n).out.getLast?
          = some ((List.replicate n.toNat base).set p color) ∧
        (codebreaker resp k n).answer.getD p 0 = -1) ∨
     ((∃ (g : List Int) (o : List (List Int)),
        positionLoop resp n (lookForUniqueColours resp k n [] 1 []).firstColorNumber
            (lookForUniqueColours resp k n [] 1 []).uniqueColours n.toNat 0
            (List.replicate n.toNat (-1)) (lookForUniqueColours resp k n [] 1 []).out
          = .left g (codebreaker resp k n).answer o ∧
        (codebreaker resp k n).out = o ++ [(codebreaker resp k n).answer]) ∧
      (-1 : Int) ∉ (codebreaker resp k n).answer ∧
      ((codebreaker resp k n).answer.length : Int) = n ∧
      (codebreaker resp k n).out.getLast? = some (codebreaker resp k n).answer)) := by
  have hreply := (codebreaker_success_cases resp k n hk.1 hn.1 hn.2 hs).2.1
  refine ⟨hreply, ?_⟩
  have hok : (lookForUniqueColours resp k n [] 1 []).ok = true := by
    cases h : (lookForUniqueColours resp k n [] 1 []).ok with
    | true => rfl
    | false =>
      rw [codebreaker_of_fail resp k n h] at hs
      simp at hs
  obtain ⟨j, _, _, _, hout, _, _, hmem, _, _, _, _, _⟩ :=
    lookFor_success_state resp k n 1 hk.1 hn.1 hn.2 hok hnt
  have hU : ∀ c ∈ (lookForUniqueColours resp k n [] 1 []).uniqueColours, 0 ≤ c :=
    fun c hc => (hmem c hc).1
  have hclean : ∀ g ∈ (lookForUniqueColours resp k n [] 1 []).out, (-1 : Int) ∉ g := by
    rw [hout]
    exact probes_have_no_marker _ _
  obtain ⟨hret, hleft⟩ := positionLoop_general resp n
    (lookForUniqueColours resp k n [] 1 []).firstColorNumber
    (lookForUniqueColours resp k n [] 1 []).uniqueColours n.toNat hn.2 rfl n.toNat 0
    (List.replicate n.toNat (-1)) (lookForUniqueColours resp k n [] 1 []).out
    (by omega) (by rw [List.length_replicate])
    (fun j hj => absurd hj (Nat.not_lt_zero j))
    (fun j _ hj => getD_replicate_of_lt _ _ _ hj)
  cases hp : positionLoop resp n (lookForUniqueColours resp k n [] 1 []).firstColorNumber
      (lookForUniqueColours resp k n [] 1 []).uniqueColours n.toNat 0
      (List.replicate n.toNat (-1)) (lookForUniqueColours resp k n [] 1 []).out with
  | returned s =>
    have e := codebreaker_of_returned resp k n s hok hnt hp
    rw [e] at hs ⊢
    left
    obtain ⟨h1, h2⟩ := positionLoop_trace resp n
      (lookForUniqueColours resp k n [] 1 []).firstColorNumber
      (lookForUniqueColours resp k n [] 1 []).uniqueColours hn.2 hU n.toNat 0
      (List.replicate n.toNat (-1)) (lookForUniqueColours resp k n [] 1 []).out
      (by omega) (by rw [List.length_replicate])
      (fun j _ hj => getD_replicate_of_lt _ _ _ hj) hclean s hp hs
    exact ⟨rfl, (hret s hp hs).2.2, h1, h2⟩
  | left g a o =>
    have e := codebreaker_of_left resp k n g a o hok hnt hp
    obtain ⟨hlen, hno⟩ := hleft g a o hp
    by_cases hc : (readResponse n (resp (o ++ [a]))).1 ≠ n ∨
        (readResponse n (resp (o ++ [a]))).2 ≠ 0
    · rw [if_pos hc] at e
      rw [e] at hs
      simp at hs
    · rw [if_neg hc] at e
      rw [e]
      right
      refine ⟨⟨g, o, rfl, rfl⟩, ?_, by simp only; omega, by simp⟩
      exact not_mem_of_getD_ne a (-1) (fun j hj => hno j (by omega))

/-- Witness of claim C15 as amended: a script that answers the two probes `1 0`,
the two positional guesses `0 0` and the verification guess `2 0`. -/
theorem codebreaker_terminal_witness :
    readResponse 2 (answering (fun j => if j = 4 then (2, 0) else if j < 2 then (1, 0) else (0, 0))
      (codebreaker (answering
        (fun j => if j = 4 then (2, 0) else if j < 2 then (1, 0) else (0, 0))) 2 2).out)
      = (2, 0) :=
  (codebreaker_terminal
    (answering (fun j => if j = 4 then (2, 0) else if j < 2 then (1, 0) else (0, 0))) 2 2
    (by decide) (by decide) (by decide) (by decide)).1

/-- Claim C17: for every responder and `2 ≤ k ≤ 256`, `2 ≤ n ≤ 10`, a codebreaker
session that ends with success has printed at least one guess, and the line read
in answer to the last guess printed is the well-formed line `n 0`, read by
`readResponse` as the match `(n, 0)`. -/
theorem codebreaker_success_sound (resp : Responder) (k n : Int)
    (hk : 2 ≤ k ∧ k ≤ 256) (hn : 2 ≤ n ∧ n ≤ 10)
    (hs : (codebreaker resp k n).exit = Exit.success) :
    (codebreaker resp k n).out ≠ [] ∧
    resp (codebreaker resp k n).out = some (Line.tokens [n, 0]) ∧
    readResponse n (resp (codebreaker resp k n).out) = (n, 0) := by
  obtain ⟨h1, h2, _⟩ := codebreaker_success_cases resp k n hk.1 hn.1 hn.2 hs
  exact ⟨h1, readResponse_line n _ n 0 (by omega) h2, h2⟩

/-- Witness of claim C17: the probe of colour 0 answered `2 0`, with `k = 2`,
`n = 2`. -/
theorem codebreaker_success_sound_witness :
    (codebreaker (answering (fun _ => (2, 0))) 2 2).out ≠ [] ∧
    answering (fun _ => (2, 0)) (codebreaker (answering (fun _ => (2, 0))) 2 2).out
      = some (Line.tokens [2, 0]) ∧
    readResponse 2 (answering (fun _ => (2, 0))
      (codebreaker (answering (fun _ => (2, 0))) 2 2).out) = (2, 0) :=
  codebreaker_success_sound (answering (fun _ => (2, 0))) 2 2 (by decide) (by decide)
    (by decide)

/-- Claim C18: for a secret with colours in `[0, 256)` and a colour `i` of
`[0, 256)`, the monochrome probe of `i` scores the number of positions of the
secret equal to `i` as black pegs and no white peg. -/
theorem monochrome_probe_response (secret : List Int) (i : Int)
    (hs : ∀ c ∈ secret, 0 ≤ c ∧ c < 256) (hi : 0 ≤ i ∧ i < 256) :
    calculateResponse secret (List.replicate secret.length i) = ((secret.count i : Int), 0) :=
  calculateResponse_replicate secret i

/-- Witness of claim C18: secret `[1, 3, 3, 5]`, probe of colour 3. -/
theorem monochrome_probe_response_witness :
    calculateResponse [1, 3, 3, 5] (List.replicate ([1, 3, 3, 5] : List Int).length 3)
      = (((([1, 3, 3, 5] : List Int).count 3 : Nat) : Int), 0) :=
  monochrome_probe_response [1, 3, 3, 5] 3 (by decide) (by decide)

/-- Claim C19: for a secret with colours in `[0, 256)`, a position `pos` inside
it and two distinct colours `base` and `cand`, with `b` the number of positions of
the secret equal to `base`, the guess `[base]*n` with `cand` at `pos` scores
`b + 1` black pegs if `secret[pos] == cand`, `b - 1` if `secret[pos] == base`, and
`b` otherwise. -/
theorem positional_delta (secret : List Int) (pos : Nat) (base cand : Int)
    (hs : ∀ c ∈ secret, 0 ≤ c ∧ c < 256) (hpos : pos < secret.length)
    (hb : 0 ≤ base ∧ base < 256) (hc : 0 ≤ cand ∧ cand < 256) (hne : base ≠ cand) :
    (calculateResponse secret ((List.replicate secret.length base).set pos cand)).1
      = if secret.getD pos 0 = cand then (secret.count base : Int) + 1
        else if secret.getD pos 0 = base then (secret.count base : Int) - 1
        else (secret.count base : Int) := by
  have h := blackCount_set_replicate secret base cand pos hpos
  rw [calculateResponse_eq]
  simp only
  by_cases e1 : secret.getD pos 0 = cand
  · have e2 : ¬ secret.getD pos 0 = base := fun x => hne (x.symm.trans e1)
    rw [if_pos e1]
    rw [if_pos e1, if_neg e2] at h
    omega
  · rw [if_neg e1]
    rw [if_neg e1] at h
    by_cases e2 : secret.getD pos 0 = base
    · rw [if_pos e2]
      rw [if_pos e2] at h
      omega
    · rw [if_neg e2]
      rw [if_neg e2] at h
      omega

/-- Witness of claim C19: secret `[1, 3, 3, 5]`, base 1, candidate 3 at
position 1. -/
theorem positional_delta_witness :
    (calculateResponse [1, 3, 3, 5]
        ((List.replicate ([1, 3, 3, 5] : List Int).length 1).set 1 3)).1
      = if ([1, 3, 3, 5] : List Int).getD 1 0 = 3
          then ((([1, 3, 3, 5] : List Int).count 1 : Nat) : Int) + 1
        else if ([1, 3, 3, 5] : List Int).getD 1 0 = 1
          then ((([1, 3, 3, 5] : List Int).count 1 : Nat) : Int) - 1
        else ((([1, 3, 3, 5] : List Int).count 1 : Nat) : Int) :=
  positional_delta [1, 3, 3, 5] 1 1 3 (by decide) (by decide) (by decide) (by decide)
    (by decide)

end Mastermind
